import Mathlib

/-!
Verification of the `user-lib` token codec and record-store accessor.

Shallow embedding of `src/services/user/user-lib.ts`:

* `encodeToken` / `decodeToken` — a bearer-token codec built from
  `JSON.stringify` / `JSON.parse`, base64 (`Buffer`), and HMAC-SHA256
  (`crypto.createHmac("sha256", key)`), operating on JS strings modelled as
  `List Char` and byte buffers modelled as `List Nat` (each byte `< 256`).
* `getUser` / `updateUser` — MongoDB `findOne` / `updateOne($set, upsert)`
  against a collection modelled as a list of documents, each document an
  ordered association list of field-name/value pairs.

Library calls that the source relies on (SHA-256, HMAC, base64, UTF-8,
JSON serialization and parsing, `String.prototype.split`, Mongo `$set`
update semantics) are given faithful executable models below.
-/

set_option maxRecDepth 100000

namespace VbagAPI

/-! ## 32-bit words as `Nat` with explicit truncation -/

/-- Truncate to a 32-bit word. -/
def w32 (n : Nat) : Nat := n % 4294967296

/-- Right rotation of a 32-bit word. -/
def rotr (k x : Nat) : Nat := w32 ((x >>> k) ||| (x <<< (32 - k)))

/-- Bitwise complement of a 32-bit word. -/
def wnot (x : Nat) : Nat := x ^^^ 4294967295

/-! ## SHA-256 (FIPS 180-4), over byte lists -/

/-- The 64 SHA-256 round constants. -/
def sha256K : List Nat :=
  [1116352408, 1899447441, 3049323471, 3921009573, 961987163, 1508970993,
   2453635748, 2870763221, 3624381080, 310598401, 607225278, 1426881987,
   1925078388, 2162078206, 2614888103, 3248222580, 3835390401, 4022224774,
   264347078, 604807628, 770255983, 1249150122, 1555081692, 1996064986,
   2554220882, 2821834349, 2952996808, 3210313671, 3336571891, 3584528711,
   113926993, 338241895, 666307205, 773529912, 1294757372, 1396182291,
   1695183700, 1986661051, 2177026350, 2456956037, 2730485921, 2820302411,
   3259730800, 3345764771, 3516065817, 3600352804, 4094571909, 275423344,
   430227734, 506948616, 659060556, 883997877, 958139571, 1322822218,
   1537002063, 1747873779, 1955562222, 2024104815, 2227730452, 2361852424,
   2428436474, 2756734187, 3204031479, 3329325298]

/-- The SHA-256 hash state: eight 32-bit words. -/
structure Hash8 where
  a : Nat
  b : Nat
  c : Nat
  d : Nat
  e : Nat
  f : Nat
  g : Nat
  h : Nat

/-- The SHA-256 initial hash value. -/
def sha256H0 : Hash8 :=
  ⟨1779033703, 3144134277, 1013904242, 2773480762, 1359893119, 2600822924, 528734635, 1541459225⟩

/-- Big-endian bytes of `n`, `count` bytes wide. -/
def natToBytesBE (count n : Nat) : List Nat :=
  (List.range count).map fun i => (n >>> (8 * (count - 1 - i))) % 256

/-- SHA-256 padding: append `0x80`, zero bytes to 56 mod 64, then the
64-bit big-endian bit length. -/
def sha256Pad (ms : List Nat) : List Nat :=
  ms ++ 0x80 :: List.replicate ((119 - ms.length % 64) % 64) 0 ++ natToBytesBE 8 (ms.length * 8)

/-- Split a byte list into 64-byte blocks (fuelled so that it reduces in
the kernel; the fuel is the list length, which always suffices). -/
def chunks64Go : Nat → List Nat → List (List Nat)
  | 0, _ => []
  | _, [] => []
  | fuel + 1, l@(_ :: _) => l.take 64 :: chunks64Go fuel (l.drop 64)

/-- Split a byte list into 64-byte blocks. -/
def chunks64 (l : List Nat) : List (List Nat) := chunks64Go l.length l

/-- Interpret 4 consecutive bytes as a big-endian 32-bit word. -/
def bytesToWords : List Nat → List Nat
  | b0 :: b1 :: b2 :: b3 :: rest => (b0 <<< 24 ||| b1 <<< 16 ||| b2 <<< 8 ||| b3) :: bytesToWords rest
  | _ => []

/-- Extend the 16 message-schedule words to 64. -/
def sha256Extend : Nat → List Nat → List Nat
  | 0, ws => ws
  | k + 1, ws =>
    let n := ws.length
    let s0 := fun x => rotr 7 x ^^^ rotr 18 x ^^^ (x >>> 3)
    let s1 := fun x => rotr 17 x ^^^ rotr 19 x ^^^ (x >>> 10)
    sha256Extend k (ws ++ [w32 (ws.getD (n - 16) 0 + s0 (ws.getD (n - 15) 0) +
      ws.getD (n - 7) 0 + s1 (ws.getD (n - 2) 0))])

/-- One SHA-256 round. -/
def sha256Round (st : Hash8) (kw : Nat × Nat) : Hash8 :=
  let S1 := rotr 6 st.e ^^^ rotr 11 st.e ^^^ rotr 25 st.e
  let ch := (st.e &&& st.f) ^^^ (wnot st.e &&& st.g)
  let temp1 := w32 (st.h + S1 + ch + kw.1 + kw.2)
  let S0 := rotr 2 st.a ^^^ rotr 13 st.a ^^^ rotr 22 st.a
  let maj := (st.a &&& st.b) ^^^ (st.a &&& st.c) ^^^ (st.b &&& st.c)
  let temp2 := w32 (S0 + maj)
  ⟨w32 (temp1 + temp2), st.a, st.b, st.c, w32 (st.d + temp1), st.e, st.f, st.g⟩

/-- Compress one 64-byte block into the running hash. -/
def sha256Block (hs : Hash8) (block : List Nat) : Hash8 :=
  let ws := sha256Extend 48 (bytesToWords block)
  let st := (sha256K.zip ws).foldl sha256Round hs
  ⟨w32 (hs.a + st.a), w32 (hs.b + st.b), w32 (hs.c + st.c), w32 (hs.d + st.d),
   w32 (hs.e + st.e), w32 (hs.f + st.f), w32 (hs.g + st.g), w32 (hs.h + st.h)⟩

/-- SHA-256 of a byte list, as the 32-byte digest. -/
def sha256 (ms : List Nat) : List Nat :=
  let hs := (chunks64 (sha256Pad ms)).foldl sha256Block sha256H0
  natToBytesBE 4 hs.a ++ natToBytesBE 4 hs.b ++ natToBytesBE 4 hs.c ++ natToBytesBE 4 hs.d ++
    natToBytesBE 4 hs.e ++ natToBytesBE 4 hs.f ++ natToBytesBE 4 hs.g ++ natToBytesBE 4 hs.h

/-- HMAC-SHA256 (RFC 2104) of a message under a key, both byte lists. -/
def hmacSha256 (key msg : List Nat) : List Nat :=
  let k0 := if 64 < key.length then sha256 key else key
  let k := k0 ++ List.replicate (64 - k0.length) 0
  sha256 ((k.map (· ^^^ 0x5c)) ++ sha256 ((k.map (· ^^^ 0x36)) ++ msg))

/-! ## Base64 (RFC 4648, as produced/consumed by Node's `Buffer`)

The byte-to-character arithmetic is written with `/`, `%`, `*` so that the
round-trip proofs are linear-arithmetic facts. -/

/-- The base64 alphabet character for a sextet value `< 64`. -/
def b64Char (v : Nat) : Char :=
  if v < 26 then Char.ofNat (65 + v)
  else if v < 52 then Char.ofNat (97 + (v - 26))
  else if v < 62 then Char.ofNat (48 + (v - 52))
  else if v = 62 then '+'
  else '/'

/-- Base64-encode a byte list, with `=` padding (`Buffer.toString("base64")`). -/
def base64Encode : List Nat → List Char
  | [] => []
  | [b0] => [b64Char (b0 / 4), b64Char (b0 % 4 * 16), '=', '=']
  | [b0, b1] => [b64Char (b0 / 4), b64Char (b0 % 4 * 16 + b1 / 16), b64Char (b1 % 16 * 4), '=']
  | b0 :: b1 :: b2 :: rest =>
    b64Char (b0 / 4) :: b64Char (b0 % 4 * 16 + b1 / 16) ::
      b64Char (b1 % 16 * 4 + b2 / 64) :: b64Char (b2 % 64) :: base64Encode rest

/-- The sextet value of a base64 alphabet character (`none` for everything
else, including `=` and `.`). -/
def b64Val (c : Char) : Option Nat :=
  if 65 ≤ c.toNat ∧ c.toNat ≤ 90 then some (c.toNat - 65)
  else if 97 ≤ c.toNat ∧ c.toNat ≤ 122 then some (c.toNat - 97 + 26)
  else if 48 ≤ c.toNat ∧ c.toNat ≤ 57 then some (c.toNat - 48 + 52)
  else if c = '+' then some 62
  else if c = '/' then some 63
  else none

/-- Reassemble bytes from a list of sextet values, four at a time; a trailing
group of two or three sextets yields one or two bytes (a lone trailing sextet
is dropped, as in Node). -/
def b64Bytes : List Nat → List Nat
  | v0 :: v1 :: v2 :: v3 :: rest =>
    (v0 * 4 + v1 / 16) :: (v1 % 16 * 16 + v2 / 4) :: (v2 % 4 * 64 + v3) :: b64Bytes rest
  | [v0, v1] => [v0 * 4 + v1 / 16]
  | [v0, v1, v2] => [v0 * 4 + v1 / 16, v1 % 16 * 16 + v2 / 4]
  | _ => []

/-- Base64-decode a character list, Node-style: characters outside the
base64 alphabet (including `=` padding) are ignored (`Buffer.from(s, "base64")`). -/
def base64Decode (s : List Char) : List Nat :=
  b64Bytes (s.filterMap b64Val)

/-! ## UTF-8 (Node `Buffer.from(string)` / `buffer.toString()`) -/

/-- UTF-8 encoding of one scalar value. -/
def utf8EncodeChar (c : Char) : List Nat :=
  let n := c.toNat
  if n < 0x80 then [n]
  else if n < 0x800 then [0xc0 + n / 64, 0x80 + n % 64]
  else if n < 0x10000 then [0xe0 + n / 4096, 0x80 + n / 64 % 64, 0x80 + n % 64]
  else [0xf0 + n / 262144, 0x80 + n / 4096 % 64, 0x80 + n / 64 % 64, 0x80 + n % 64]

/-- UTF-8 encoding of a JS string (`Buffer.from(string)`). -/
def utf8Encode (s : List Char) : List Nat := s.flatMap utf8EncodeChar

/-- A scalar value as a `Char`; invalid scalar values become U+FFFD, as Node's
lossy UTF-8 decoding substitutes the replacement character. -/
def mkChar (n : Nat) : Char :=
  if h : n.isValidChar then Char.ofNatAux n h else '�'

mutual

/-- Lossy UTF-8 decoding, fuelled (the fuel is the remaining byte count, so
the function is structurally recursive and reduces in the kernel):
well-formed sequences decode to their scalar value; a malformed sequence
yields U+FFFD and decoding resumes after it.  A lead byte hands the scalar
bits it contributes to the continuation helpers, one byte (and one fuel
unit) at a time. -/
def utf8DecodeGo : Nat → List Nat → List Char
  | _, [] => []
  | 0, _ :: _ => []
  | fuel + 1, b0 :: bs =>
    if b0 < 0x80 then mkChar b0 :: utf8DecodeGo fuel bs
    else if b0 < 0xc0 then '�' :: utf8DecodeGo fuel bs
    else if b0 < 0xe0 then utf8DecodeCont1 ((b0 - 0xc0) * 64) fuel bs
    else if b0 < 0xf0 then utf8DecodeCont2 ((b0 - 0xe0) * 4096) fuel bs
    else utf8DecodeCont3 ((b0 - 0xf0) * 262144) fuel bs

/-- Consume the last continuation byte of a sequence and emit the scalar. -/
def utf8DecodeCont1 (acc : Nat) : Nat → List Nat → List Char
  | f + 1, b :: bs =>
    if 0x80 ≤ b ∧ b < 0xc0 then mkChar (acc + (b - 0x80)) :: utf8DecodeGo f bs
    else '�' :: utf8DecodeGo f bs
  | _, _ => ['�']

/-- Consume the antepenultimate continuation byte of a sequence. -/
def utf8DecodeCont2 (acc : Nat) : Nat → List Nat → List Char
  | f + 1, b :: bs =>
    if 0x80 ≤ b ∧ b < 0xc0 then utf8DecodeCont1 (acc + (b - 0x80) * 64) f bs
    else '�' :: utf8DecodeGo f bs
  | _, _ => ['�']

/-- Consume the first continuation byte of a four-byte sequence. -/
def utf8DecodeCont3 (acc : Nat) : Nat → List Nat → List Char
  | f + 1, b :: bs =>
    if 0x80 ≤ b ∧ b < 0xc0 then utf8DecodeCont2 (acc + (b - 0x80) * 4096) f bs
    else '�' :: utf8DecodeGo f bs
  | _, _ => ['�']

end

/-- Lossy UTF-8 decoding of a byte list (`buffer.toString()`). -/
def utf8Decode (bs : List Nat) : List Char := utf8DecodeGo bs.length bs

/-! ## JSON values

JS values that `JSON.stringify` / `JSON.parse` exchange, with numbers
restricted to integers (the tokens in this codebase carry no fractional
numbers, and JS floating-point printing is out of scope).  Arrays and
objects are mutual inductives rather than nested `List`s so that all
functions over them are structurally recursive and reduce in the kernel;
object members are kept in insertion order, as JS objects are. -/

mutual

inductive Json where
  | null
  | bool (b : Bool)
  | num (n : Int)
  | str (s : List Char)
  | arr (elems : JsonList)
  | obj (fields : JsonMembers)
deriving DecidableEq

inductive JsonList where
  | nil
  | cons (v : Json) (vs : JsonList)
deriving DecidableEq

inductive JsonMembers where
  | nil
  | cons (k : List Char) (v : Json) (kvs : JsonMembers)
deriving DecidableEq

end

/-! ### `JSON.stringify` -/

/-- Lowercase hexadecimal digit. -/
def hexDigitChar (n : Nat) : Char :=
  if n < 10 then Char.ofNat (48 + n) else Char.ofNat (87 + n)

/-- How `JSON.stringify` renders one character inside a string literal:
quote and backslash get two-character escapes, the five named control
characters get `\b \t \n \f \r`, other control characters get `\u00xx`,
everything else is emitted verbatim. -/
def escapeChar (c : Char) : List Char :=
  if c = '"' then ['\\', '"']
  else if c = '\\' then ['\\', '\\']
  else if c = Char.ofNat 8 then ['\\', 'b']
  else if c = Char.ofNat 9 then ['\\', 't']
  else if c = Char.ofNat 10 then ['\\', 'n']
  else if c = Char.ofNat 12 then ['\\', 'f']
  else if c = Char.ofNat 13 then ['\\', 'r']
  else if c.toNat < 32 then ['\\', 'u', '0', '0', hexDigitChar (c.toNat / 16), hexDigitChar (c.toNat % 16)]
  else [c]

/-- Rendering of a string value by `JSON.stringify`. -/
def stringifyString (s : List Char) : List Char :=
  '"' :: s.flatMap escapeChar ++ ['"']

/-- Decimal digits of `n`, fuelled so that the definition reduces in the
kernel (`fuel > n` always suffices). -/
def natDigitsGo : Nat → Nat → List Char
  | 0, _ => []
  | fuel + 1, n =>
    if n < 10 then [Char.ofNat (48 + n)]
    else natDigitsGo fuel (n / 10) ++ [Char.ofNat (48 + n % 10)]

/-- Decimal digits of a natural number. -/
def natDigits (n : Nat) : List Char := natDigitsGo (n + 1) n

/-- Decimal rendering of an integer, as JS prints integral numbers. -/
def intChars (n : Int) : List Char :=
  if n < 0 then '-' :: natDigits n.natAbs else natDigits n.natAbs

mutual

/-- The model of `JSON.stringify` (no spacing argument, as the source calls it). -/
def jsonStringify : Json → List Char
  | .null => ['n', 'u', 'l', 'l']
  | .bool true => 't' :: ['r', 'u', 'e']
  | .bool false => 'f' :: ['a', 'l', 's', 'e']
  | .num n => intChars n
  | .str s => stringifyString s
  | .arr l => '[' :: stringifyElems l ++ [']']
  | .obj l => '{' :: stringifyMembers l ++ ['}']

/-- Array elements, comma separated. -/
def stringifyElems : JsonList → List Char
  | .nil => []
  | .cons v vs => jsonStringify v ++ stringifyElemsTail vs

/-- Remaining array elements, each preceded by a comma. -/
def stringifyElemsTail : JsonList → List Char
  | .nil => []
  | .cons v vs => ',' :: (jsonStringify v ++ stringifyElemsTail vs)

/-- Object members, comma separated, each `"key":value`. -/
def stringifyMembers : JsonMembers → List Char
  | .nil => []
  | .cons k v kvs => stringifyString k ++ ':' :: (jsonStringify v ++ stringifyMembersTail kvs)

/-- Remaining object members, each preceded by a comma. -/
def stringifyMembersTail : JsonMembers → List Char
  | .nil => []
  | .cons k v kvs => ',' :: (stringifyString k ++ ':' :: (jsonStringify v ++ stringifyMembersTail kvs))

end

/-! ### `JSON.parse`

A recursive-descent parser for the JSON grammar (JS `JSON.parse`), in the
integer-number fragment used by this codebase.  `parseValue` is fuelled so
that it is structurally recursive and reduces in the kernel; input length
plus one always suffices. -/

/-- JSON whitespace. -/
def isWs (c : Char) : Bool :=
  c = ' ' || c = Char.ofNat 9 || c = Char.ofNat 10 || c = Char.ofNat 13

/-- Skip leading JSON whitespace. -/
def skipWs : List Char → List Char
  | [] => []
  | c :: cs => if isWs c then skipWs cs else c :: cs

/-- ASCII decimal digit. -/
def isDigitCh (c : Char) : Bool := 48 ≤ c.toNat && c.toNat ≤ 57

/-- Split off the longest leading run of decimal digits. -/
def takeDigits : List Char → List Char × List Char
  | [] => ([], [])
  | c :: cs =>
    if isDigitCh c then
      let (d, r) := takeDigits cs
      (c :: d, r)
    else ([], c :: cs)

/-- Value of a digit string. -/
def digitsVal (ds : List Char) : Nat :=
  ds.foldl (fun a c => a * 10 + (c.toNat - 48)) 0

/-- The digit run of a number body, as a signed value; fails on an empty
digit run. -/
def parseNumBody (neg : Bool) (body : List Char) : Option (Json × List Char) :=
  if (takeDigits body).1 = [] then none
  else
    some (.num (if neg then -(digitsVal (takeDigits body).1 : Int)
                else (digitsVal (takeDigits body).1 : Int)), (takeDigits body).2)

/-- Parse an integer JSON number (optional minus sign, one or more digits).
Leading zeros are tolerated here although `JSON.parse` rejects them;
`JSON.stringify` never produces them and nothing in this codebase depends
on that corner. -/
def parseNumber (cs : List Char) : Option (Json × List Char) :=
  if cs.headD ' ' = '-' then parseNumBody true cs.tail else parseNumBody false cs

/-- Hexadecimal digit value. -/
def hexVal (c : Char) : Option Nat :=
  if 48 ≤ c.toNat ∧ c.toNat ≤ 57 then some (c.toNat - 48)
  else if 97 ≤ c.toNat ∧ c.toNat ≤ 102 then some (c.toNat - 87)
  else if 65 ≤ c.toNat ∧ c.toNat ≤ 70 then some (c.toNat - 55)
  else none

/-- Parse the body of a JSON string (after the opening quote), returning the
string value and the input after the closing quote.  Unescaped control
characters are rejected, escape sequences are decoded. -/
def parseStringBody : List Char → Option (List Char × List Char)
  | [] => none
  | c :: cs =>
    if c = '"' then some ([], cs)
    else if c = '\\' then
      match cs with
      | [] => none
      | e :: cs' =>
        if e = 'u' then
          match cs' with
          | h1 :: h2 :: h3 :: h4 :: cs'' => do
            let v1 ← hexVal h1
            let v2 ← hexVal h2
            let v3 ← hexVal h3
            let v4 ← hexVal h4
            let (s, r) ← parseStringBody cs''
            some (mkChar (v1 * 4096 + v2 * 256 + v3 * 16 + v4) :: s, r)
          | _ => none
        else do
          let d ←
            if e = '"' then some '"'
            else if e = '\\' then some '\\'
            else if e = '/' then some '/'
            else if e = 'b' then some (Char.ofNat 8)
            else if e = 'f' then some (Char.ofNat 12)
            else if e = 'n' then some (Char.ofNat 10)
            else if e = 'r' then some (Char.ofNat 13)
            else if e = 't' then some (Char.ofNat 9)
            else none
          let (s, r) ← parseStringBody cs'
          some (d :: s, r)
    else if c.toNat < 32 then none
    else do
      let (s, r) ← parseStringBody cs
      some (c :: s, r)

/-- Match an expected literal character sequence. -/
def expectChars : List Char → List Char → Option (List Char)
  | [], cs => some cs
  | _ :: _, [] => none
  | p :: ps, c :: cs => if c = p then expectChars ps cs else none

mutual

/-- Parse one JSON value (fuelled). -/
def parseValue : Nat → List Char → Option (Json × List Char)
  | 0, _ => none
  | fuel + 1, cs =>
    match skipWs cs with
    | [] => none
    | c :: cs' =>
      if c = 'n' then (expectChars ['u', 'l', 'l'] cs').map (fun r => (.null, r))
      else if c = 't' then (expectChars ['r', 'u', 'e'] cs').map (fun r => (.bool true, r))
      else if c = 'f' then (expectChars ['a', 'l', 's', 'e'] cs').map (fun r => (.bool false, r))
      else if c = '"' then (parseStringBody cs').map (fun sr => (.str sr.1, sr.2))
      else if c = '[' then
        match skipWs cs' with
        | c2 :: r =>
          if c2 = ']' then some (.arr .nil, r)
          else (parseElems fuel cs').map (fun lr => (.arr lr.1, lr.2))
        | [] => (parseElems fuel cs').map (fun lr => (.arr lr.1, lr.2))
      else if c = '{' then
        match skipWs cs' with
        | c2 :: r =>
          if c2 = '}' then some (.obj .nil, r)
          else (parseMembers fuel cs').map (fun mr => (.obj mr.1, mr.2))
        | [] => (parseMembers fuel cs').map (fun mr => (.obj mr.1, mr.2))
      else if c = '-' || isDigitCh c then parseNumber (c :: cs')
      else none

/-- Parse the elements of a non-empty JSON array, up to and including the
closing bracket. -/
def parseElems : Nat → List Char → Option (JsonList × List Char)
  | 0, _ => none
  | fuel + 1, cs => do
    let (v, r) ← parseValue fuel cs
    match skipWs r with
    | c :: r' =>
      if c = ',' then do
        let (vs, r'') ← parseElems fuel r'
        some (.cons v vs, r'')
      else if c = ']' then some (.cons v .nil, r')
      else none
    | [] => none

/-- Parse the members of a non-empty JSON object, up to and including the
closing brace. -/
def parseMembers : Nat → List Char → Option (JsonMembers × List Char)
  | 0, _ => none
  | fuel + 1, cs =>
    match skipWs cs with
    | c :: cs' =>
      if c = '"' then do
        let (k, r1) ← parseStringBody cs'
        match skipWs r1 with
        | c2 :: r2 =>
          if c2 = ':' then do
            let (v, r3) ← parseValue fuel r2
            match skipWs r3 with
            | c3 :: r4 =>
              if c3 = ',' then do
                let (kvs, r5) ← parseMembers fuel r4
                some (.cons k v kvs, r5)
              else if c3 = '}' then some (.cons k v .nil, r4)
              else none
            | [] => none
          else none
        | [] => none
      else none
    | [] => none

end

/-- The model of `JSON.parse`: parse a complete JSON text (only whitespace may follow the
value). -/
def jsonParse (s : List Char) : Option Json :=
  match parseValue (s.length + 1) s with
  | some (v, rest) => if skipWs rest = [] then some v else none
  | none => none

/-! ## The token codec (`encodeToken` / `decodeToken`,
`src/services/user/user-lib.ts` lines 61–100) -/

/-- The payload field name the source uses: `user` (the `{ user, data }`
object literal at line 62). -/
def userKey : List Char := "user".data

/-- The payload field name `data`. -/
def dataKey : List Char := "data".data

/-- The payload object `{ user, data }` built by `encodeToken` (line 62);
JS object literals keep insertion order, so `user` precedes `data`. -/
def payloadJson (user : List Char) (data : Json) : Json :=
  .obj (.cons userKey (.str user) (.cons dataKey data .nil))

/-- The encoded payload `Buffer.from(JSON.stringify(payload)).toString("base64")` (line 64). -/
def encPayload (user : List Char) (data : Json) : List Char :=
  base64Encode (utf8Encode (jsonStringify (payloadJson user data)))

/-- The signature `crypto.createHmac("sha256", secretKey).update(msg).digest("base64")`
(lines 65 and 87). -/
def sigOf (secretKey msg : List Char) : List Char :=
  base64Encode (hmacSha256 (utf8Encode secretKey) (utf8Encode msg))

/-- The model of `encodeToken` (lines 61–70): the returned token string
`${encodedPayload}.${signature}`.  The source wraps it as `{ token }` and
never populates the optional `context`, so the token string is the whole
observable result. -/
def encodeToken (user : List Char) (data : Json) (secretKey : List Char) : List Char :=
  encPayload user data ++ '.' :: sigOf secretKey (encPayload user data)

/-- The failures `decodeToken` can signal: the two tagged `Error`s thrown at
lines 84 and 90, and the untagged `SyntaxError` that `JSON.parse` throws at
line 97 when the decoded payload segment is not valid JSON. -/
inductive DecodeError where
  | invalidTokenFormat
  | invalidToken
  | jsonError
deriving DecidableEq

/-- JS `String.prototype.split` with a one-character separator: splits at
every occurrence, keeping empty segments (`"".split(".") == [""]`). -/
def jsSplit (sep : Char) : List Char → List (List Char)
  | [] => [[]]
  | c :: cs =>
    if c = sep then [] :: jsSplit sep cs
    else
      match jsSplit sep cs with
      | [] => [[c]]
      | g :: gs => (c :: g) :: gs

/-- The model of `decodeToken` (lines 80–100).  `token.split(".")` splits at every dot;
the destructuring `[encodedPayload, signature]` takes elements 0 and 1, and
`!encodedPayload || !signature` is true when the element is missing
(`undefined`) or the empty string — both modelled by `getD _ []`.  The
signature check compares against the recomputed HMAC; then the payload
segment is base64-decoded, UTF-8 decoded and `JSON.parse`d.  The
`as Payload` cast performs no validation, so whatever JSON value parses is
returned as-is. -/
def decodeToken (token secretKey : List Char) : Except DecodeError Json :=
  let parts := jsSplit '.' token
  let encodedPayload := parts.getD 0 []
  let signature := parts.getD 1 []
  if encodedPayload = [] ∨ signature = [] then .error .invalidTokenFormat
  else if signature ≠ sigOf secretKey encodedPayload then .error .invalidToken
  else
    match jsonParse (utf8Decode (base64Decode encodedPayload)) with
    | some payload => .ok payload
    | none => .error .jsonError

/-! ## The record store (`getUser` / `updateUser`, lines 13–52)

The `user`/`info` Mongo collection is modelled as a list of documents, a
document as an ordered association list of field-name/value pairs (BSON
values modelled as `Json`).  `findOne` returns the first matching document;
`updateOne(filter, { $set }, { upsert: true })` sets the given fields on the
first matching document — `$set` updates named fields in place and appends
missing ones, leaving all other fields intact — or, with no match, inserts a
new document built from the filter's equality fields with `$set` applied. -/

/-- A stored document: ordered field-name/value pairs. -/
abbrev Document := List (List Char × Json)

/-- The value of a field, if present. -/
def docLookup (k : List Char) : Document → Option Json
  | [] => none
  | (k', v) :: d => if k' = k then some v else docLookup k d

/-- Mongo `$set` of a single field: replace the value in place if the field
exists, append the field otherwise. -/
def setField (k : List Char) (v : Json) : Document → Document
  | [] => [(k, v)]
  | (k', v') :: d => if k' = k then (k, v) :: d else (k', v') :: setField k v d

/-- Mongo `$set` of a list of fields, applied left to right. -/
def applySet (fields : List (List Char × Json)) (d : Document) : Document :=
  fields.foldl (fun d kv => setField kv.1 kv.2 d) d

/-- The field names of the user schema. -/
def idKey : List Char := "id".data

/-- The `email` field name. -/
def emailKey : List Char := "email".data

/-- The `firstname` field name. -/
def firstnameKey : List Char := "firstname".data

/-- The `lastname` field name. -/
def lastnameKey : List Char := "lastname".data

/-- The record argument of `updateUser` (`UserFormat`): four string fields. -/
structure UserFormat where
  id : List Char
  email : List Char
  firstname : List Char
  lastname : List Char

/-- Does a document match the filter `{ id: userId }`? -/
def matchesId (userId : List Char) (d : Document) : Bool :=
  decide (docLookup idKey d = some (.str userId))

/-- The `$set` document built at lines 38–44: the four user fields. -/
def setDoc (u : UserFormat) : List (List Char × Json) :=
  [(idKey, .str u.id), (emailKey, .str u.email),
   (firstnameKey, .str u.firstname), (lastnameKey, .str u.lastname)]

/-- The model of `collection.updateOne({ id }, { $set }, { upsert: true })`: update the
first matching document with `$set`, or insert a new document (from the
filter's equality field with `$set` applied) when none matches. -/
def updateOneUpsert (userId : List Char) (fields : List (List Char × Json)) :
    List Document → List Document
  | [] => [applySet fields [(idKey, .str userId)]]
  | d :: ds =>
    if matchesId userId d then applySet fields d :: ds
    else d :: updateOneUpsert userId fields ds

/-- The model of `updateUser` (lines 33–52), acting on the modelled collection.  The
`catch`/`InternalError` path covers driver I/O faults, which the store model
does not produce. -/
def updateUser (u : UserFormat) (store : List Document) : List Document :=
  updateOneUpsert u.id (setDoc u) store

/-- The failures `getUser` can signal. -/
inductive StoreError where
  | userNotFound
  | internalError
deriving DecidableEq

/-- The model of `getUser` (lines 13–25): `findOne({ id: userId })`, `UserNotFound` when
no document matches.  The `catch`/`InternalError` path covers driver I/O
faults, which the store model does not produce. -/
def getUser (userId : List Char) (store : List Document) : Except StoreError Document :=
  match store.find? (matchesId userId) with
  | some d => .ok d
  | none => .error .userNotFound

/-! ## Auxiliary definitions for the statements -/

deriving instance DecidableEq for Except

/-- The decoder as the spec describes it: split the token at the FIRST `.`
only, so the signature segment is everything after the first dot (spec
§4.2 step 1 and claim C3); all later steps as in `decodeToken`.  This
definition follows the spec's words, to be compared against `decodeToken`,
which follows the source. -/
def decodeTokenSplitFirst (token secretKey : List Char) : Except DecodeError Json :=
  let encodedPayload := token.takeWhile (fun c => c ≠ '.')
  let signature := (token.dropWhile (fun c => c ≠ '.')).tail
  if encodedPayload = [] ∨ signature = [] then .error .invalidTokenFormat
  else if signature ≠ sigOf secretKey encodedPayload then .error .invalidToken
  else
    match jsonParse (utf8Decode (base64Decode encodedPayload)) with
    | some payload => .ok payload
    | none => .error .jsonError

mutual

/-- Fuel sufficient for `parseValue` to parse the stringification of a
value: one unit per nesting step. -/
def jfuel : Json → Nat
  | .arr l => 1 + jfuelL l
  | .obj m => 1 + jfuelM m
  | _ => 1

/-- Fuel sufficient for `parseElems` on a stringified array body. -/
def jfuelL : JsonList → Nat
  | .nil => 0
  | .cons v vs => 1 + max (jfuel v) (jfuelL vs)

/-- Fuel sufficient for `parseMembers` on a stringified object body. -/
def jfuelM : JsonMembers → Nat
  | .nil => 0
  | .cons _ v kvs => 1 + max (jfuel v) (jfuelM kvs)

end

/-- Does the input avoid starting with a decimal digit?  (A JSON number
parse is greedy, so round-trip statements require the trailing input not to
start with a digit.) -/
def noDigitStart : List Char → Bool
  | [] => true
  | c :: _ => !isDigitCh c

/-- The `data` value of the spec's concrete example: `\x7b"role":"admin"\x7d`. -/
def dAdmin : Json := .obj (.cons "role".data (.str "admin".data) .nil)

/-- The payload field name the spec claims (`subject`), which the source
does not use. -/
def subjectKey : List Char := "subject".data

/-- The payload object shape the spec claims for the concrete example:
`subject`/`data` fields. -/
def specPayloadSubject : Json :=
  .obj (.cons subjectKey (.str "u1".data) (.cons dataKey dAdmin .nil))

/-- A payload segment that is valid base64 of valid UTF-8 but not valid
JSON (the three ASCII characters `nul`). -/
def segNul : List Char := base64Encode (utf8Encode "nul".data)

/-- An extra field name not in the user schema. -/
def extraKey : List Char := "extra".data

/-- A one-document store whose document carries a fifth field `extra`
besides the four schema fields. -/
def storeWithExtra : List Document :=
  [[(idKey, .str "u1".data), (emailKey, .str "old".data), (extraKey, .str "x".data)]]

/-- A fresh record for the `u1` identifier. -/
def recNew : UserFormat := ⟨"u1".data, "e".data, "f".data, "l".data⟩

/-! # Theorems -/

/-! ## Known-answer tests for the cryptographic model -/

/-- Known-answer test: SHA-256 of the ASCII bytes of `abc`. -/
theorem sha256_kat_abc :
    sha256 [0x61, 0x62, 0x63] =
      [0xba, 0x78, 0x16, 0xbf, 0x8f, 0x01, 0xcf, 0xea, 0x41, 0x41, 0x40, 0xde, 0x5d, 0xae, 0x22, 0x23,
       0xb0, 0x03, 0x61, 0xa3, 0x96, 0x17, 0x7a, 0x9c, 0xb4, 0x10, 0xff, 0x61, 0xf2, 0x00, 0x15, 0xad] := by
  decide

/-- Known-answer test: HMAC-SHA256 with key `key` over
`The quick brown fox jumps over the lazy dog`. -/
theorem hmacSha256_kat :
    hmacSha256 ("key".data.map Char.toNat)
        ("The quick brown fox jumps over the lazy dog".data.map Char.toNat) =
      [0xf7, 0xbc, 0x83, 0xf4, 0x30, 0x53, 0x84, 0x24, 0xb1, 0x32, 0x98, 0xe6, 0xaa, 0x6f, 0xb1, 0x43,
       0xef, 0x4d, 0x59, 0xa1, 0x49, 0x46, 0x17, 0x59, 0x97, 0x47, 0x9d, 0xbc, 0x2d, 0x1a, 0x3c, 0xd8] := by
  decide

/-! ## Character facts -/

/-- The packing function `Char.ofNatAux` inverts `Char.toNat`. -/
theorem toNat_ofNatAux (n : Nat) (h : n.isValidChar) : (Char.ofNatAux n h).toNat = n := rfl

/-- On valid scalar values, `mkChar` is `Char.ofNat`. -/
theorem mkChar_valid (n : Nat) (h : n.isValidChar) : mkChar n = Char.ofNat n := by
  simp [mkChar, Char.ofNat, h]

/-- The function `mkChar` inverts `Char.toNat`. -/
theorem toNat_mkChar (n : Nat) (h : n.isValidChar) : (mkChar n).toNat = n := by
  rw [mkChar, dif_pos h, toNat_ofNatAux]

/-- Applying `mkChar` to a character's scalar value gives back the character. -/
theorem mkChar_toNat (c : Char) : mkChar c.toNat = c := by
  have h := mkChar_valid c.toNat c.valid
  rw [h, Char.ofNat_toNat]

/-- On valid scalar values, `Char.ofNat` inverts `Char.toNat`. -/
theorem toNat_ofNat (n : Nat) (h : n.isValidChar) : (Char.ofNat n).toNat = n := by
  rw [← mkChar_valid n h, toNat_mkChar n h]

/-- Scalar values of characters are below `0x110000`. -/
theorem char_toNat_lt (c : Char) : c.toNat < 1114112 := by
  rcases c.valid with h | ⟨_, h⟩
  · exact Nat.lt_trans h (by decide)
  · exact h

/-! ## `jsSplit` -/

/-- A JS `split` never returns an empty array. -/
theorem jsSplit_ne_nil (sep : Char) (l : List Char) : jsSplit sep l ≠ [] := by
  cases l with
  | nil => simp [jsSplit]
  | cons c cs =>
    simp only [jsSplit]
    split
    · simp
    · split <;> simp

/-- A separator-free string splits into a one-element array. -/
theorem jsSplit_not_mem (sep : Char) (l : List Char) (h : sep ∉ l) : jsSplit sep l = [l] := by
  induction l with
  | nil => rfl
  | cons c cs ih =>
    have hc : ¬(c = sep) := by rintro rfl; exact h (List.mem_cons_self _ _)
    have hcs : sep ∉ cs := fun hm => h (List.mem_cons_of_mem _ hm)
    simp [jsSplit, hc, ih hcs]

/-- Splitting a string that starts with a separator-free segment followed by
a separator yields that segment, then the split of the remainder. -/
theorem jsSplit_append (sep : Char) (a rest : List Char) (h : sep ∉ a) :
    jsSplit sep (a ++ sep :: rest) = a :: jsSplit sep rest := by
  induction a with
  | nil => simp [jsSplit]
  | cons c a' ih =>
    have hc : ¬(c = sep) := by rintro rfl; exact h (List.mem_cons_self _ _)
    have ha' : sep ∉ a' := fun hm => h (List.mem_cons_of_mem _ hm)
    simp [jsSplit, hc, ih ha']

/-! ## Byte bounds -/

/-- Big-endian byte rendering produces bytes. -/
theorem natToBytesBE_lt (k n : Nat) : ∀ b ∈ natToBytesBE k n, b < 256 := by
  intro b hb
  simp only [natToBytesBE, List.mem_map] at hb
  obtain ⟨i, _, rfl⟩ := hb
  exact Nat.mod_lt _ (by decide)

/-- SHA-256 digests are bytes. -/
theorem sha256_lt (ms : List Nat) : ∀ b ∈ sha256 ms, b < 256 := by
  intro b hb
  simp only [sha256, List.mem_append] at hb
  rcases hb with ((((((h | h) | h) | h) | h) | h) | h) | h <;> exact natToBytesBE_lt _ _ _ h

/-- HMAC-SHA256 digests are bytes. -/
theorem hmacSha256_lt (key msg : List Nat) : ∀ b ∈ hmacSha256 key msg, b < 256 := by
  intro b hb
  exact sha256_lt _ _ hb

/-- SHA-256 digests are 32 bytes long. -/
theorem sha256_length (ms : List Nat) : (sha256 ms).length = 32 := by
  simp [sha256, natToBytesBE]

/-- UTF-8 encodings of one character are bytes. -/
theorem utf8EncodeChar_lt (c : Char) : ∀ b ∈ utf8EncodeChar c, b < 256 := by
  have hv := char_toNat_lt c
  intro b hb
  simp only [utf8EncodeChar] at hb
  split at hb
  · simp only [List.mem_cons, List.not_mem_nil, or_false] at hb; omega
  · split at hb
    · simp only [List.mem_cons, List.not_mem_nil, or_false] at hb; omega
    · split at hb <;> simp only [List.mem_cons, List.not_mem_nil, or_false] at hb <;> omega

/-- UTF-8 encodings are bytes. -/
theorem utf8Encode_lt (s : List Char) : ∀ b ∈ utf8Encode s, b < 256 := by
  intro b hb
  simp only [utf8Encode, List.mem_flatMap] at hb
  obtain ⟨c, _, hc⟩ := hb
  exact utf8EncodeChar_lt c b hc

/-- UTF-8 encodings of one character are nonempty. -/
theorem utf8EncodeChar_ne_nil (c : Char) : utf8EncodeChar c ≠ [] := by
  simp only [utf8EncodeChar]
  split
  · simp
  · split
    · simp
    · split <;> simp

/-- UTF-8 encodings of nonempty strings are nonempty. -/
theorem utf8Encode_ne_nil (c : Char) (s : List Char) : utf8Encode (c :: s) ≠ [] := by
  simp only [utf8Encode, List.flatMap_cons]
  intro h
  rcases List.append_eq_nil.mp h with ⟨h1, _⟩
  exact utf8EncodeChar_ne_nil c h1

/-! ## Base64 facts -/

/-- The alphabet map inverts the alphabet character map on sextets. -/
theorem b64Val_b64Char : ∀ v < 64, b64Val (b64Char v) = some v := by decide

/-- No alphabet character is a dot. -/
theorem b64Char_ne_dot : ∀ v < 64, b64Char v ≠ '.' := by decide

/-- Padding characters decode to nothing. -/
theorem b64Val_pad : b64Val '=' = none := by decide

/-- Every character of a base64 encoding is padding or an alphabet
character of a sextet. -/
theorem base64Encode_chars : ∀ (bs : List Nat), (∀ b ∈ bs, b < 256) →
    ∀ c ∈ base64Encode bs, c = '=' ∨ ∃ v, v < 64 ∧ c = b64Char v
  | [], _, c, hc => by simp [base64Encode] at hc
  | [b0], hb, c, hc => by
    have h0 : b0 < 256 := hb b0 (by simp)
    simp only [base64Encode, List.mem_cons, List.not_mem_nil, or_false] at hc
    rcases hc with rfl | rfl | rfl | rfl
    · exact .inr ⟨_, by omega, rfl⟩
    · exact .inr ⟨_, by omega, rfl⟩
    · exact .inl rfl
    · exact .inl rfl
  | [b0, b1], hb, c, hc => by
    have h0 : b0 < 256 := hb b0 (by simp)
    have h1 : b1 < 256 := hb b1 (by simp)
    simp only [base64Encode, List.mem_cons, List.not_mem_nil, or_false] at hc
    rcases hc with rfl | rfl | rfl | rfl
    · exact .inr ⟨_, by omega, rfl⟩
    · exact .inr ⟨_, by omega, rfl⟩
    · exact .inr ⟨_, by omega, rfl⟩
    · exact .inl rfl
  | b0 :: b1 :: b2 :: rest, hb, c, hc => by
    have h0 : b0 < 256 := hb b0 (by simp)
    have h1 : b1 < 256 := hb b1 (by simp)
    have h2 : b2 < 256 := hb b2 (by simp)
    simp only [base64Encode, List.mem_cons] at hc
    rcases hc with rfl | rfl | rfl | rfl | hc
    · exact .inr ⟨_, by omega, rfl⟩
    · exact .inr ⟨_, by omega, rfl⟩
    · exact .inr ⟨_, by omega, rfl⟩
    · exact .inr ⟨_, by omega, rfl⟩
    · exact base64Encode_chars rest (fun b hbm => hb b (by simp [hbm])) c hc

/-- Base64 encodings contain no dot. -/
theorem base64Encode_no_dot (bs : List Nat) (hb : ∀ b ∈ bs, b < 256) :
    '.' ∉ base64Encode bs := by
  intro hm
  rcases base64Encode_chars bs hb '.' hm with h | ⟨v, hv, h⟩
  · exact absurd h (by decide)
  · exact b64Char_ne_dot v hv h.symm

/-- Base64 encodings of nonempty inputs are nonempty. -/
theorem base64Encode_ne_nil : ∀ (bs : List Nat), bs ≠ [] → base64Encode bs ≠ []
  | [], h => absurd rfl h
  | [_], _ => by simp [base64Encode]
  | [_, _], _ => by simp [base64Encode]
  | _ :: _ :: _ :: _, _ => by simp [base64Encode]

/-- Round-trip: Node's base64 decode inverts base64 encode on byte lists. -/
theorem base64_roundtrip : ∀ (bs : List Nat), (∀ b ∈ bs, b < 256) →
    base64Decode (base64Encode bs) = bs
  | [], _ => rfl
  | [b0], hb => by
    have h0 : b0 < 256 := hb b0 (by simp)
    simp only [base64Decode, base64Encode]
    rw [List.filterMap_cons_some (b64Val_b64Char _ (by omega)),
        List.filterMap_cons_some (b64Val_b64Char _ (by omega)),
        List.filterMap_cons_none b64Val_pad,
        List.filterMap_cons_none b64Val_pad, List.filterMap_nil]
    simp only [b64Bytes, List.cons.injEq, and_true]
    omega
  | [b0, b1], hb => by
    have h0 : b0 < 256 := hb b0 (by simp)
    have h1 : b1 < 256 := hb b1 (by simp)
    simp only [base64Decode, base64Encode]
    rw [List.filterMap_cons_some (b64Val_b64Char _ (by omega)),
        List.filterMap_cons_some (b64Val_b64Char _ (by omega)),
        List.filterMap_cons_some (b64Val_b64Char _ (by omega)),
        List.filterMap_cons_none b64Val_pad, List.filterMap_nil]
    simp only [b64Bytes, List.cons.injEq, and_true]
    constructor <;> omega
  | b0 :: b1 :: b2 :: rest, hb => by
    have h0 : b0 < 256 := hb b0 (by simp)
    have h1 : b1 < 256 := hb b1 (by simp)
    have h2 : b2 < 256 := hb b2 (by simp)
    have hrest : ∀ b ∈ rest, b < 256 := fun b hbm => hb b (by simp [hbm])
    have ih := base64_roundtrip rest hrest
    simp only [base64Decode] at ih ⊢
    simp only [base64Encode]
    rw [List.filterMap_cons_some (b64Val_b64Char _ (by omega)),
        List.filterMap_cons_some (b64Val_b64Char _ (by omega)),
        List.filterMap_cons_some (b64Val_b64Char _ (by omega)),
        List.filterMap_cons_some (b64Val_b64Char _ (by omega))]
    simp only [b64Bytes, List.cons.injEq]
    exact ⟨by omega, by omega, by omega, ih⟩

/-! ## Signature and payload segment facts -/

/-- HMAC digests are 32 bytes long. -/
theorem hmacSha256_length (key msg : List Nat) : (hmacSha256 key msg).length = 32 :=
  sha256_length _

/-- HMAC digests are nonempty. -/
theorem hmacSha256_ne_nil (key msg : List Nat) : hmacSha256 key msg ≠ [] := by
  intro h
  have := hmacSha256_length key msg
  rw [h] at this
  simp at this

/-- Signatures contain no dot. -/
theorem sigOf_no_dot (k p : List Char) : '.' ∉ sigOf k p :=
  base64Encode_no_dot _ (hmacSha256_lt _ _)

/-- Signatures are nonempty. -/
theorem sigOf_ne_nil (k p : List Char) : sigOf k p ≠ [] :=
  base64Encode_ne_nil _ (hmacSha256_ne_nil _ _)

/-- The encoded payload contains no dot. -/
theorem encPayload_no_dot (u : List Char) (d : Json) : '.' ∉ encPayload u d :=
  base64Encode_no_dot _ (utf8Encode_lt _)

/-- The serialized payload object starts with a brace. -/
theorem jsonStringify_payloadJson (u : List Char) (d : Json) :
    jsonStringify (payloadJson u d) =
      '{' :: (stringifyMembers (.cons userKey (.str u) (.cons dataKey d .nil)) ++ ['}']) := rfl

/-- The encoded payload is nonempty. -/
theorem encPayload_ne_nil (u : List Char) (d : Json) : encPayload u d ≠ [] := by
  apply base64Encode_ne_nil
  rw [jsonStringify_payloadJson]
  exact utf8Encode_ne_nil _ _

/-! ## UTF-8 round-trip -/

/-- Decoding an encoded character consumes exactly its bytes. -/
theorem utf8DecodeGo_encodeChar (c : Char) (rest : List Nat) :
    utf8DecodeGo (utf8EncodeChar c ++ rest).length (utf8EncodeChar c ++ rest) =
      c :: utf8DecodeGo rest.length rest := by
  have hv := char_toNat_lt c
  by_cases h1 : c.toNat < 0x80
  · rw [show utf8EncodeChar c = [c.toNat] from by simp [utf8EncodeChar, h1]]
    simp only [List.cons_append, List.nil_append, List.length_cons]
    conv_lhs => unfold utf8DecodeGo
    rw [if_pos h1, mkChar_toNat]
  · by_cases h2 : c.toNat < 0x800
    · rw [show utf8EncodeChar c = [0xc0 + c.toNat / 64, 0x80 + c.toNat % 64] from by
        simp [utf8EncodeChar, h1, h2]]
      simp only [List.cons_append, List.nil_append, List.length_cons]
      conv_lhs => unfold utf8DecodeGo
      rw [if_neg (by omega), if_neg (by omega), if_pos (by omega)]
      conv_lhs => unfold utf8DecodeCont1
      rw [if_pos (by omega)]
      congr 1
      rw [show (0xc0 + c.toNat / 64 - 0xc0) * 64 + (0x80 + c.toNat % 64 - 0x80) = c.toNat by
        omega]
      exact mkChar_toNat c
    · by_cases h3 : c.toNat < 0x10000
      · rw [show utf8EncodeChar c =
            [0xe0 + c.toNat / 4096, 0x80 + c.toNat / 64 % 64, 0x80 + c.toNat % 64] from by
          simp [utf8EncodeChar, h1, h2, h3]]
        simp only [List.cons_append, List.nil_append, List.length_cons]
        conv_lhs => unfold utf8DecodeGo
        rw [if_neg (by omega), if_neg (by omega), if_neg (by omega), if_pos (by omega)]
        conv_lhs => unfold utf8DecodeCont2
        rw [if_pos (by omega)]
        conv_lhs => unfold utf8DecodeCont1
        rw [if_pos (by omega)]
        congr 1
        rw [show (0xe0 + c.toNat / 4096 - 0xe0) * 4096 + (0x80 + c.toNat / 64 % 64 - 0x80) * 64 +
            (0x80 + c.toNat % 64 - 0x80) = c.toNat by omega]
        exact mkChar_toNat c
      · rw [show utf8EncodeChar c =
            [0xf0 + c.toNat / 262144, 0x80 + c.toNat / 4096 % 64, 0x80 + c.toNat / 64 % 64,
             0x80 + c.toNat % 64] from by simp [utf8EncodeChar, h1, h2, h3]]
        simp only [List.cons_append, List.nil_append, List.length_cons]
        conv_lhs => unfold utf8DecodeGo
        rw [if_neg (by omega), if_neg (by omega), if_neg (by omega), if_neg (by omega)]
        conv_lhs => unfold utf8DecodeCont3
        rw [if_pos (by omega)]
        conv_lhs => unfold utf8DecodeCont2
        rw [if_pos (by omega)]
        conv_lhs => unfold utf8DecodeCont1
        rw [if_pos (by omega)]
        congr 1
        rw [show (0xf0 + c.toNat / 262144 - 0xf0) * 262144 +
            (0x80 + c.toNat / 4096 % 64 - 0x80) * 4096 + (0x80 + c.toNat / 64 % 64 - 0x80) * 64 +
            (0x80 + c.toNat % 64 - 0x80) = c.toNat by omega]
        exact mkChar_toNat c

/-- Decoding an encoded character at the head of a byte stream yields the
character and continues with the rest. -/
theorem utf8Decode_encodeChar_append (c : Char) (rest : List Nat) :
    utf8Decode (utf8EncodeChar c ++ rest) = c :: utf8Decode rest :=
  utf8DecodeGo_encodeChar c rest

/-- Round-trip with a trailing byte stream. -/
theorem utf8_roundtrip_append (s : List Char) (rest : List Nat) :
    utf8Decode (utf8Encode s ++ rest) = s ++ utf8Decode rest := by
  induction s with
  | nil => simp [utf8Encode]
  | cons c s ih =>
    rw [show utf8Encode (c :: s) = utf8EncodeChar c ++ utf8Encode s from by simp [utf8Encode],
        List.append_assoc, utf8Decode_encodeChar_append, ih, List.cons_append]

/-- Round-trip: Node's lossy UTF-8 decode inverts UTF-8 encode. -/
theorem utf8_roundtrip (s : List Char) : utf8Decode (utf8Encode s) = s := by
  have h := utf8_roundtrip_append s []
  rw [List.append_nil, show utf8Decode [] = [] from rfl, List.append_nil] at h
  exact h

/-! ## Decimal digits -/

/-- The digit renderer is fuel-irrelevant above the value. -/
theorem natDigitsGo_irrel : ∀ (f1 n f2 : Nat), n < f1 → n < f2 →
    natDigitsGo f1 n = natDigitsGo f2 n := by
  intro f1
  induction f1 with
  | zero => intro n f2 h1 _; omega
  | succ g1 ih =>
    intro n f2 h1 h2
    cases f2 with
    | zero => omega
    | succ g2 =>
      show natDigitsGo (g1 + 1) n = natDigitsGo (g2 + 1) n
      by_cases hn : n < 10
      · conv_lhs => unfold natDigitsGo
        conv_rhs => unfold natDigitsGo
        rw [if_pos hn, if_pos hn]
      · have hd : n / 10 < n := Nat.div_lt_self (by omega) (by decide)
        conv_lhs => unfold natDigitsGo
        conv_rhs => unfold natDigitsGo
        rw [if_neg hn, if_neg hn, ih (n / 10) g2 (by omega) (by omega)]

/-- The defining recurrence of `natDigits`. -/
theorem natDigits_eq (n : Nat) : natDigits n =
    if n < 10 then [Char.ofNat (48 + n)]
    else natDigits (n / 10) ++ [Char.ofNat (48 + n % 10)] := by
  show natDigitsGo (n + 1) n = _
  conv_lhs => unfold natDigitsGo
  by_cases hn : n < 10
  · rw [if_pos hn, if_pos hn]
  · have hd : n / 10 < n := Nat.div_lt_self (by omega) (by decide)
    rw [if_neg hn, if_neg hn]
    congr 1
    exact natDigitsGo_irrel n (n / 10) (n / 10 + 1) (by omega) (by omega)

/-- A rendered digit is a digit character. -/
theorem isDigitCh_ofNat (n : Nat) (h : n < 10) : isDigitCh (Char.ofNat (48 + n)) = true := by
  have hval : (48 + n).isValidChar := Or.inl (by omega)
  simp only [isDigitCh, toNat_ofNat _ hval]
  simp only [Bool.and_eq_true, decide_eq_true_eq]
  omega

/-- All characters of a decimal rendering are digits. -/
theorem natDigits_digits (n : Nat) : ∀ c ∈ natDigits n, isDigitCh c = true := by
  induction n using Nat.strong_induction_on with
  | _ n ih =>
    rw [natDigits_eq]
    by_cases hn : n < 10
    · rw [if_pos hn]
      intro c hc
      rw [List.mem_singleton] at hc
      subst hc
      exact isDigitCh_ofNat n hn
    · rw [if_neg hn]
      intro c hc
      rcases List.mem_append.mp hc with hc | hc
      · exact ih (n / 10) (Nat.div_lt_self (by omega) (by decide)) c hc
      · rw [List.mem_singleton] at hc
        subst hc
        exact isDigitCh_ofNat _ (by omega)

/-- Decimal renderings are nonempty. -/
theorem natDigits_ne_nil (n : Nat) : natDigits n ≠ [] := by
  rw [natDigits_eq]
  by_cases hn : n < 10 <;> simp [hn]

/-- Folding the digit-value step over a decimal rendering recovers the
value (with an accumulator). -/
theorem foldl_natDigits (n : Nat) : ∀ a : Nat,
    (natDigits n).foldl (fun a c => a * 10 + (c.toNat - 48)) a =
      a * 10 ^ (natDigits n).length + n := by
  induction n using Nat.strong_induction_on with
  | _ n ih =>
    intro a
    rw [natDigits_eq]
    by_cases hn : n < 10
    · have hval : (48 + n).isValidChar := Or.inl (by omega)
      rw [if_pos hn]
      simp only [List.foldl_cons, List.foldl_nil, List.length_singleton, pow_one,
        toNat_ofNat _ hval]
      omega
    · have hval : (48 + n % 10).isValidChar := Or.inl (by omega)
      rw [if_neg hn, List.foldl_append, List.length_append,
        ih (n / 10) (Nat.div_lt_self (by omega) (by decide)) a]
      simp only [List.foldl_cons, List.foldl_nil, List.length_singleton, toNat_ofNat _ hval]
      rw [pow_succ, ← mul_assoc]
      have h10 : 0 < 10 ^ (natDigits (n / 10)).length := Nat.pos_pow_of_pos _ (by omega)
      omega

/-- The digit value of a decimal rendering is the value. -/
theorem digitsVal_natDigits (n : Nat) : digitsVal (natDigits n) = n := by
  have h := foldl_natDigits n 0
  simpa [digitsVal] using h

/-- Splitting off a digit run followed by a non-digit. -/
theorem takeDigits_append (ds rest : List Char) (hds : ∀ c ∈ ds, isDigitCh c = true)
    (hrest : noDigitStart rest = true) : takeDigits (ds ++ rest) = (ds, rest) := by
  induction ds with
  | nil =>
    cases rest with
    | nil => rfl
    | cons c cs =>
      simp only [noDigitStart, Bool.not_eq_true'] at hrest
      simp [takeDigits, hrest]
  | cons c ds ih =>
    have hc := hds c (by simp)
    simp [takeDigits, hc, ih (fun x hx => hds x (by simp [hx]))]

/-- Digit characters are not a minus sign. -/
theorem isDigitCh_ne_minus (c : Char) (h : isDigitCh c = true) : ¬(c = '-') := by
  intro hc
  subst hc
  exact absurd h (by decide)

/-- Behaviour of `parseNumBody` on a digit run followed by a non-digit. -/
theorem parseNumBody_digits (neg : Bool) (m : Nat) (rest : List Char)
    (hrest : noDigitStart rest = true) :
    parseNumBody neg (natDigits m ++ rest) =
      some (.num (if neg then -(m : Int) else (m : Int)), rest) := by
  unfold parseNumBody
  rw [takeDigits_append _ _ (natDigits_digits _) hrest]
  simp only [if_neg (natDigits_ne_nil m)]
  cases neg <;> simp [digitsVal_natDigits]

/-- Parsing the decimal rendering of an integer recovers it. -/
theorem parseNumber_intChars (n : Int) (rest : List Char) (hrest : noDigitStart rest = true) :
    parseNumber (intChars n ++ rest) = some (.num n, rest) := by
  obtain ⟨c, cs, hc⟩ := List.exists_cons_of_ne_nil (natDigits_ne_nil n.natAbs)
  have hcd : isDigitCh c = true := natDigits_digits n.natAbs c (by rw [hc]; simp)
  by_cases hn : n < 0
  · rw [show intChars n = '-' :: natDigits n.natAbs from by simp [intChars, hn],
      List.cons_append]
    unfold parseNumber
    rw [List.headD_cons, if_pos rfl, List.tail_cons, parseNumBody_digits true _ _ hrest]
    have habs : (n.natAbs : Int) = -n := Int.ofNat_natAbs_of_nonpos (by omega)
    simp [habs]
  · rw [show intChars n = natDigits n.natAbs from by simp [intChars, hn]]
    unfold parseNumber
    rw [if_neg (by rw [hc, List.cons_append, List.headD_cons]; exact isDigitCh_ne_minus c hcd),
      parseNumBody_digits false _ _ hrest]
    have habs : (n.natAbs : Int) = n := Int.natAbs_of_nonneg (by omega)
    simp [habs]

/-! ## JSON string escape round-trip -/

/-- Hex digit characters round-trip. -/
theorem hexVal_hexDigitChar : ∀ n < 16, hexVal (hexDigitChar n) = some n := by decide

/-- Parsing an escaped string body up to the closing quote recovers the
string and leaves the rest. -/
theorem parseStringBody_escape (s : List Char) : ∀ rest : List Char,
    parseStringBody (s.flatMap escapeChar ++ '"' :: rest) = some (s, rest) := by
  induction s with
  | nil =>
    intro rest
    rw [show ([] : List Char).flatMap escapeChar = [] from rfl, List.nil_append]
    unfold parseStringBody
    rw [if_pos rfl]
  | cons c s ih =>
    intro rest
    rw [show (c :: s).flatMap escapeChar = escapeChar c ++ s.flatMap escapeChar from by simp,
      List.append_assoc]
    by_cases h1 : c = '"'
    · subst h1
      rw [show escapeChar '"' = ['\\', '"'] from by decide]
      simp only [List.cons_append, List.nil_append]
      unfold parseStringBody
      simp [ih rest]
    · by_cases h2 : c = '\\'
      · subst h2
        rw [show escapeChar '\\' = ['\\', '\\'] from by decide]
        simp only [List.cons_append, List.nil_append]
        unfold parseStringBody
        simp [ih rest]
      · by_cases h3 : c = Char.ofNat 8
        · subst h3
          rw [show escapeChar (Char.ofNat 8) = ['\\', 'b'] from by decide]
          simp only [List.cons_append, List.nil_append]
          unfold parseStringBody
          simp [ih rest]
        · by_cases h4 : c = Char.ofNat 9
          · subst h4
            rw [show escapeChar (Char.ofNat 9) = ['\\', 't'] from by decide]
            simp only [List.cons_append, List.nil_append]
            unfold parseStringBody
            simp [ih rest]
          · by_cases h5 : c = Char.ofNat 10
            · subst h5
              rw [show escapeChar (Char.ofNat 10) = ['\\', 'n'] from by decide]
              simp only [List.cons_append, List.nil_append]
              unfold parseStringBody
              simp [ih rest]
            · by_cases h6 : c = Char.ofNat 12
              · subst h6
                rw [show escapeChar (Char.ofNat 12) = ['\\', 'f'] from by decide]
                simp only [List.cons_append, List.nil_append]
                unfold parseStringBody
                simp [ih rest]
              · by_cases h7 : c = Char.ofNat 13
                · subst h7
                  rw [show escapeChar (Char.ofNat 13) = ['\\', 'r'] from by decide]
                  simp only [List.cons_append, List.nil_append]
                  unfold parseStringBody
                  simp [ih rest]
                · by_cases h8 : c.toNat < 32
                  · rw [show escapeChar c = ['\\', 'u', '0', '0', hexDigitChar (c.toNat / 16),
                        hexDigitChar (c.toNat % 16)] from by
                          simp [escapeChar, h1, h2, h3, h4, h5, h6, h7, h8]]
                    simp only [List.cons_append, List.nil_append]
                    unfold parseStringBody
                    simp [ih rest, show hexVal '0' = some 0 from by decide,
                      hexVal_hexDigitChar _ (show c.toNat / 16 < 16 by omega),
                      hexVal_hexDigitChar _ (show c.toNat % 16 < 16 by omega)]
                    rw [show c.toNat / 16 * 16 + c.toNat % 16 = c.toNat from by omega]
                    exact mkChar_toNat c
                  · rw [show escapeChar c = [c] from by
                        simp [escapeChar, h1, h2, h3, h4, h5, h6, h7, h8]]
                    simp only [List.cons_append, List.nil_append]
                    unfold parseStringBody
                    simp [ih rest, h1, h2, h8]

/-! ## Parser helper lemmas -/

/-- Matching a literal prefix succeeds and strips it. -/
theorem expectChars_append (p rest : List Char) : expectChars p (p ++ rest) = some rest := by
  induction p with
  | nil => rfl
  | cons c p ih => simp [expectChars, ih]

/-- Skipping whitespace is the identity on input starting with a non-space. -/
theorem skipWs_cons (c : Char) (cs : List Char) (h : isWs c = false) :
    skipWs (c :: cs) = c :: cs := by
  simp [skipWs, h]

/-- Digit characters are distinct from any non-digit character. -/
theorem isDigitCh_ne (c e : Char) (h : isDigitCh c = true) (he : isDigitCh e = false) :
    ¬(c = e) := fun hh => by subst hh; rw [h] at he; cases he

/-- Digit characters are not whitespace. -/
theorem isWs_of_digit (c : Char) (h : isDigitCh c = true) : isWs c = false := by
  cases hw : isWs c
  · rfl
  · exfalso
    simp only [isWs, Bool.or_eq_true, decide_eq_true_eq] at hw
    rcases hw with ((h' | h') | h') | h' <;> subst h' <;> exact absurd h (by decide)

/-- The head of a rendered integer: a minus sign or a digit. -/
theorem intChars_head (n : Int) : ∃ c cs, intChars n = c :: cs ∧
    (c = '-' ∨ isDigitCh c = true) := by
  obtain ⟨c, cs, hc⟩ := List.exists_cons_of_ne_nil (natDigits_ne_nil n.natAbs)
  have hcd : isDigitCh c = true := natDigits_digits n.natAbs c (by rw [hc]; simp)
  by_cases hn : n < 0
  · exact ⟨'-', natDigits n.natAbs, by simp [intChars, hn], .inl rfl⟩
  · exact ⟨c, cs, by simp [intChars, hn, hc], .inr hcd⟩

/-- The head of a stringified value exists and is neither whitespace nor a
closing bracket, closing brace, nor comma. -/
theorem jsonStringify_head (v : Json) : ∃ c cs, jsonStringify v = c :: cs ∧ isWs c = false ∧
    ¬(c = ']') ∧ ¬(c = '}') ∧ ¬(c = ',') ∧ ¬(c = ':') := by
  cases v with
  | null => exact ⟨'n', _, rfl, by decide, by decide, by decide, by decide, by decide⟩
  | bool b =>
    cases b with
    | true => exact ⟨'t', _, rfl, by decide, by decide, by decide, by decide, by decide⟩
    | false => exact ⟨'f', _, rfl, by decide, by decide, by decide, by decide, by decide⟩
  | num n =>
    obtain ⟨c, cs, hc, hcl⟩ := intChars_head n
    refine ⟨c, cs, hc, ?_, ?_, ?_, ?_, ?_⟩ <;> rcases hcl with rfl | hd
    · decide
    · exact isWs_of_digit c hd
    · decide
    · exact isDigitCh_ne c ']' hd (by decide)
    · decide
    · exact isDigitCh_ne c '}' hd (by decide)
    · decide
    · exact isDigitCh_ne c ',' hd (by decide)
    · decide
    · exact isDigitCh_ne c ':' hd (by decide)
  | str s =>
    exact ⟨'"', _, rfl, by decide, by decide, by decide, by decide, by decide⟩
  | arr l => exact ⟨'[', _, rfl, by decide, by decide, by decide, by decide, by decide⟩
  | obj m => exact ⟨'{', _, rfl, by decide, by decide, by decide, by decide, by decide⟩

/-- A stringified value does not start with a digit run continuation. -/
theorem noDigitStart_of_head (c : Char) (cs : List Char) (h : isDigitCh c = false) :
    noDigitStart (c :: cs) = true := by
  simp [noDigitStart, h]

/-! ## Fuel measure facts -/

/-- The fuel measure on arrays. -/
theorem jfuel_arr (l : JsonList) : jfuel (.arr l) = 1 + jfuelL l := by conv_lhs => unfold jfuel

/-- The fuel measure on objects. -/
theorem jfuel_obj (m : JsonMembers) : jfuel (.obj m) = 1 + jfuelM m := by conv_lhs => unfold jfuel

/-- The fuel measure on non-empty element lists. -/
theorem jfuelL_cons (v : Json) (vs : JsonList) :
    jfuelL (.cons v vs) = 1 + max (jfuel v) (jfuelL vs) := by conv_lhs => unfold jfuelL

/-- The fuel measure on non-empty member lists. -/
theorem jfuelM_cons (k : List Char) (v : Json) (kvs : JsonMembers) :
    jfuelM (.cons k v kvs) = 1 + max (jfuel v) (jfuelM kvs) := by conv_lhs => unfold jfuelM

/-- Every value needs at least one unit of fuel. -/
theorem jfuel_pos (v : Json) : 1 ≤ jfuel v := by
  cases v
  case arr l => rw [jfuel_arr]; omega
  case obj m => rw [jfuel_obj]; omega
  all_goals (conv_rhs => unfold jfuel)

/-! ## Parsing inverts stringification -/

/-- Main round-trip invariant, by strong induction on the fuel measure:
parsing the stringification of a value (resp. of non-empty array elements,
of non-empty object members) with enough fuel succeeds and leaves exactly
the trailing input. -/
theorem parse_stringify_main : ∀ N : Nat,
    (∀ v : Json, jfuel v ≤ N → ∀ fuel rest, jfuel v ≤ fuel → noDigitStart rest = true →
      parseValue fuel (jsonStringify v ++ rest) = some (v, rest)) ∧
    (∀ l : JsonList, jfuelL l ≤ N → l ≠ .nil → ∀ fuel rest, jfuelL l ≤ fuel →
      parseElems fuel (stringifyElems l ++ ']' :: rest) = some (l, rest)) ∧
    (∀ m : JsonMembers, jfuelM m ≤ N → m ≠ .nil → ∀ fuel rest, jfuelM m ≤ fuel →
      parseMembers fuel (stringifyMembers m ++ '}' :: rest) = some (m, rest)) := by
  intro N
  induction N using Nat.strong_induction_on with
  | _ N ih =>
    refine ⟨?_, ?_, ?_⟩
    · -- values
      intro v hvN fuel rest hvf hrest
      have hp := jfuel_pos v
      cases fuel with
      | zero => omega
      | succ f =>
        cases v with
        | null =>
          show parseValue (f + 1) (['n', 'u', 'l', 'l'] ++ rest) = some (.null, rest)
          simp only [List.cons_append, List.nil_append]
          unfold parseValue
          rw [skipWs_cons _ _ (by decide)]
          simp [expectChars]
        | bool b =>
          cases b with
          | true =>
            show parseValue (f + 1) (['t', 'r', 'u', 'e'] ++ rest) = some (.bool true, rest)
            simp only [List.cons_append, List.nil_append]
            unfold parseValue
            rw [skipWs_cons _ _ (by decide)]
            simp [expectChars]
          | false =>
            show parseValue (f + 1) (['f', 'a', 'l', 's', 'e'] ++ rest) =
              some (.bool false, rest)
            simp only [List.cons_append, List.nil_append]
            unfold parseValue
            rw [skipWs_cons _ _ (by decide)]
            simp [expectChars]
        | num n =>
          obtain ⟨c, cs, hc, hcl⟩ := intChars_head n
          have hws : isWs c = false := by
            rcases hcl with rfl | hd
            · decide
            · exact isWs_of_digit c hd
          show parseValue (f + 1) (intChars n ++ rest) = some (.num n, rest)
          rw [hc, List.cons_append]
          unfold parseValue
          rw [skipWs_cons _ _ hws]
          have hn : ¬(c = 'n') := by
            rcases hcl with rfl | hd
            · decide
            · exact isDigitCh_ne c 'n' hd (by decide)
          have ht : ¬(c = 't') := by
            rcases hcl with rfl | hd
            · decide
            · exact isDigitCh_ne c 't' hd (by decide)
          have hf : ¬(c = 'f') := by
            rcases hcl with rfl | hd
            · decide
            · exact isDigitCh_ne c 'f' hd (by decide)
          have hq : ¬(c = '"') := by
            rcases hcl with rfl | hd
            · decide
            · exact isDigitCh_ne c '"' hd (by decide)
          have hb : ¬(c = '[') := by
            rcases hcl with rfl | hd
            · decide
            · exact isDigitCh_ne c '[' hd (by decide)
          have hr : ¬(c = '{') := by
            rcases hcl with rfl | hd
            · decide
            · exact isDigitCh_ne c '{' hd (by decide)
          have hnum : (c = '-' || isDigitCh c) = true := by
            rcases hcl with rfl | hd
            · simp
            · simp [hd]
          simp only [if_neg hn, if_neg ht, if_neg hf, if_neg hq, if_neg hb, if_neg hr, hnum,
            if_pos]
          rw [← List.cons_append, ← hc, parseNumber_intChars n rest hrest]
        | str s =>
          show parseValue (f + 1) (('"' :: s.flatMap escapeChar ++ ['"']) ++ rest) =
            some (.str s, rest)
          simp only [List.cons_append, List.append_assoc, List.singleton_append]
          unfold parseValue
          rw [skipWs_cons _ _ (by decide)]
          simp [parseStringBody_escape s rest]
        | arr l =>
          cases l with
          | nil =>
            show parseValue (f + 1) (('[' :: stringifyElems .nil ++ [']']) ++ rest) =
              some (.arr .nil, rest)
            simp only [show stringifyElems .nil = [] from rfl, List.nil_append,
              List.cons_append, List.singleton_append]
            unfold parseValue
            rw [skipWs_cons _ _ (by decide)]
            simp only []
            rw [if_neg (by decide), if_neg (by decide), if_neg (by decide), if_neg (by decide),
              if_pos trivial, skipWs_cons _ _ (by decide)]
            simp only []
            rw [if_pos trivial]
          | cons v vs =>
            rw [jfuel_arr] at hvN hvf
            have hN1 : 1 ≤ N := by omega
            have IHl := (ih (N - 1) (by omega)).2.1 (.cons v vs) (by omega)
              (by intro hcontra; cases hcontra) f rest (by omega)
            show parseValue (f + 1)
              (('[' :: stringifyElems (.cons v vs) ++ [']']) ++ rest) = _
            simp only [List.cons_append, List.append_assoc, List.singleton_append,
              List.nil_append]
            unfold parseValue
            rw [skipWs_cons _ _ (by decide)]
            obtain ⟨c, cs, hcv, hws, hbr, _, _, _⟩ := jsonStringify_head v
            have hshape : stringifyElems (.cons v vs) ++ ']' :: rest =
                c :: (cs ++ (stringifyElemsTail vs ++ ']' :: rest)) := by
              show jsonStringify v ++ stringifyElemsTail vs ++ ']' :: rest = _
              rw [hcv]
              simp [List.append_assoc]
            simp only []
            rw [if_neg (show ¬(('[' : Char) = 'n') by decide),
              if_neg (show ¬(('[' : Char) = 't') by decide),
              if_neg (show ¬(('[' : Char) = 'f') by decide),
              if_neg (show ¬(('[' : Char) = '"') by decide), if_pos trivial]
            rw [show skipWs (stringifyElems (.cons v vs) ++ ']' :: rest) =
                c :: (cs ++ (stringifyElemsTail vs ++ ']' :: rest)) from by
              rw [hshape]; exact skipWs_cons _ _ hws]
            simp only []
            rw [if_neg hbr, IHl]
            rfl
        | obj m =>
          cases m with
          | nil =>
            show parseValue (f + 1) (('{' :: stringifyMembers .nil ++ ['}']) ++ rest) =
              some (.obj .nil, rest)
            simp only [show stringifyMembers .nil = [] from rfl, List.nil_append,
              List.cons_append, List.singleton_append]
            unfold parseValue
            rw [skipWs_cons _ _ (by decide)]
            simp only []
            rw [if_neg (by decide), if_neg (by decide), if_neg (by decide), if_neg (by decide),
              if_neg (by decide), if_pos trivial, skipWs_cons _ _ (by decide)]
            simp only []
            rw [if_pos trivial]
          | cons k v kvs =>
            rw [jfuel_obj] at hvN hvf
            have hN1 : 1 ≤ N := by omega
            have IHm := (ih (N - 1) (by omega)).2.2 (.cons k v kvs) (by omega)
              (by intro hcontra; cases hcontra) f rest (by omega)
            show parseValue (f + 1)
              (('{' :: stringifyMembers (.cons k v kvs) ++ ['}']) ++ rest) = _
            simp only [List.cons_append, List.append_assoc, List.singleton_append,
              List.nil_append]
            unfold parseValue
            rw [skipWs_cons _ _ (by decide)]
            have hshape : stringifyMembers (.cons k v kvs) ++ '}' :: rest =
                '"' :: (k.flatMap escapeChar ++
                  ('"' :: (':' :: (jsonStringify v ++
                    (stringifyMembersTail kvs ++ '}' :: rest))))) := by
              show (stringifyString k ++
                ':' :: (jsonStringify v ++ stringifyMembersTail kvs)) ++ '}' :: rest = _
              simp [stringifyString, List.append_assoc]
            simp only []
            rw [if_neg (show ¬(('{' : Char) = 'n') by decide),
              if_neg (show ¬(('{' : Char) = 't') by decide),
              if_neg (show ¬(('{' : Char) = 'f') by decide),
              if_neg (show ¬(('{' : Char) = '"') by decide),
              if_neg (show ¬(('{' : Char) = '[') by decide), if_pos trivial]
            rw [show skipWs (stringifyMembers (.cons k v kvs) ++ '}' :: rest) =
                '"' :: (k.flatMap escapeChar ++
                  ('"' :: (':' :: (jsonStringify v ++
                    (stringifyMembersTail kvs ++ '}' :: rest))))) from by
              rw [hshape]; exact skipWs_cons _ _ (by decide)]
            simp only []
            rw [if_neg (show ¬(('"' : Char) = '}') by decide), IHm]
            rfl
    · -- array elements
      intro l hlN hlne fuel rest hlf
      cases l with
      | nil => exact absurd rfl hlne
      | cons v vs =>
        rw [jfuelL_cons] at hlN hlf
        have hN1 : 1 ≤ N := by omega
        have IHv := (ih (N - 1) (by omega)).1 v (by omega)
        cases fuel with
        | zero => omega
        | succ f =>
          unfold parseElems
          have hin : stringifyElems (.cons v vs) ++ ']' :: rest =
              jsonStringify v ++ (stringifyElemsTail vs ++ ']' :: rest) := by
            show jsonStringify v ++ stringifyElemsTail vs ++ ']' :: rest = _
            rw [List.append_assoc]
          rw [hin, IHv f _ (by omega) (by cases vs <;> rfl)]
          cases vs with
          | nil =>
            show (some (v, stringifyElemsTail .nil ++ ']' :: rest)).bind _ = _
            simp only [show stringifyElemsTail .nil = [] from rfl, List.nil_append,
              Option.some_bind]
            rw [skipWs_cons _ _ (by decide)]
            simp only []
            rw [if_neg (by decide), if_pos trivial]
          | cons v' vs' =>
            have IHl := (ih (N - 1) (by omega)).2.1 (.cons v' vs') (by omega)
              (by intro hcontra; cases hcontra) f rest (by omega)
            show (some (v, stringifyElemsTail (.cons v' vs') ++ ']' :: rest)).bind _ = _
            rw [show stringifyElemsTail (.cons v' vs') ++ ']' :: rest =
                ',' :: (stringifyElems (.cons v' vs') ++ ']' :: rest) from by
              show (',' :: (jsonStringify v' ++ stringifyElemsTail vs')) ++ ']' :: rest = _
              rw [List.cons_append]
              rfl]
            simp only [Option.some_bind]
            rw [skipWs_cons _ _ (by decide)]
            simp only []
            rw [if_pos trivial, IHl]
            simp
    · -- object members
      intro m hmN hmne fuel rest hmf
      cases m with
      | nil => exact absurd rfl hmne
      | cons k v kvs =>
        rw [jfuelM_cons] at hmN hmf
        have hN1 : 1 ≤ N := by omega
        have IHv := (ih (N - 1) (by omega)).1 v (by omega)
        cases fuel with
        | zero => omega
        | succ f =>
          unfold parseMembers
          have hin : stringifyMembers (.cons k v kvs) ++ '}' :: rest =
              '"' :: (k.flatMap escapeChar ++
                ('"' :: (':' :: (jsonStringify v ++
                  (stringifyMembersTail kvs ++ '}' :: rest))))) := by
            show (stringifyString k ++
              ':' :: (jsonStringify v ++ stringifyMembersTail kvs)) ++ '}' :: rest = _
            simp [stringifyString, List.append_assoc]
          rw [hin, skipWs_cons _ _ (by decide)]
          simp only []
          rw [if_pos trivial,
            parseStringBody_escape k
              (':' :: (jsonStringify v ++ (stringifyMembersTail kvs ++ '}' :: rest)))]
          simp only [Option.bind_eq_bind, Option.some_bind]
          rw [skipWs_cons _ _ (by decide)]
          simp only []
          rw [if_pos trivial, IHv f _ (by omega) (by cases kvs <;> rfl)]
          simp only [Option.bind_eq_bind, Option.some_bind]
          cases kvs with
          | nil =>
            simp only [show stringifyMembersTail .nil = [] from rfl, List.nil_append]
            rw [skipWs_cons _ _ (by decide)]
            simp only []
            rw [if_neg (by decide), if_pos trivial]
          | cons k' v' kvs' =>
            have IHm := (ih (N - 1) (by omega)).2.2 (.cons k' v' kvs') (by omega)
              (by intro hcontra; cases hcontra) f rest (by omega)
            rw [show stringifyMembersTail (.cons k' v' kvs') ++ '}' :: rest =
                ',' :: (stringifyMembers (.cons k' v' kvs') ++ '}' :: rest) from by
              show (',' :: (stringifyString k' ++
                ':' :: (jsonStringify v' ++ stringifyMembersTail kvs'))) ++ '}' :: rest = _
              rw [List.cons_append]
              rfl]
            rw [skipWs_cons _ _ (by decide)]
            simp only []
            rw [if_pos trivial, IHm]
            simp

/-- Rendered integers are nonempty. -/
theorem intChars_ne_nil (n : Int) : intChars n ≠ [] := by
  unfold intChars
  by_cases hn : n < 0
  · simp [hn]
  · simp [hn, natDigits_ne_nil]

/-- The fuel measure of a value is at most its rendered length (and the
corresponding bounds for element and member lists). -/
theorem jfuel_le_length : ∀ N : Nat,
    (∀ v : Json, jfuel v ≤ N → jfuel v ≤ (jsonStringify v).length) ∧
    (∀ l : JsonList, jfuelL l ≤ N → l ≠ .nil →
      jfuelL l ≤ (stringifyElems l).length + 1) ∧
    (∀ m : JsonMembers, jfuelM m ≤ N → m ≠ .nil →
      jfuelM m ≤ (stringifyMembers m).length + 1) := by
  intro N
  induction N using Nat.strong_induction_on with
  | _ N ih =>
    refine ⟨?_, ?_, ?_⟩
    · intro v hvN
      cases v with
      | null =>
        rw [show jfuel .null = 1 from rfl]
        decide
      | bool b =>
        rw [show jfuel (.bool b) = 1 from by cases b <;> rfl]
        cases b <;> decide
      | num n =>
        have h := List.length_pos.mpr (intChars_ne_nil n)
        show jfuel (.num n) ≤ (intChars n).length
        rw [show jfuel (.num n) = 1 from rfl]
        omega
      | str s =>
        show jfuel (.str s) ≤ ('"' :: s.flatMap escapeChar ++ ['"']).length
        rw [show jfuel (.str s) = 1 from rfl]
        simp
      | arr l =>
        rw [jfuel_arr] at hvN ⊢
        cases l with
        | nil =>
          rw [show jfuelL .nil = 0 from by conv_lhs => unfold jfuelL]
          decide
        | cons v vs =>
          have hB := (ih (N - 1) (by omega)).2.1 (.cons v vs) (by omega)
            (by intro hcontra; cases hcontra)
          show 1 + jfuelL (.cons v vs) ≤ ('[' :: stringifyElems (.cons v vs) ++ [']']).length
          simp only [List.cons_append, List.length_cons, List.length_append,
            List.length_singleton]
          omega
      | obj m =>
        rw [jfuel_obj] at hvN ⊢
        cases m with
        | nil =>
          rw [show jfuelM .nil = 0 from by conv_lhs => unfold jfuelM]
          decide
        | cons k v kvs =>
          have hB := (ih (N - 1) (by omega)).2.2 (.cons k v kvs) (by omega)
            (by intro hcontra; cases hcontra)
          show 1 + jfuelM (.cons k v kvs) ≤ ('{' :: stringifyMembers (.cons k v kvs) ++ ['}']).length
          simp only [List.cons_append, List.length_cons, List.length_append,
            List.length_singleton]
          omega
    · intro l hlN hlne
      cases l with
      | nil => exact absurd rfl hlne
      | cons v vs =>
        rw [jfuelL_cons] at hlN ⊢
        have hN1 : 1 ≤ N := by have := jfuel_pos v; omega
        have hA := (ih (N - 1) (by omega)).1 v (by omega)
        cases vs with
        | nil =>
          show 1 + max (jfuel v) (jfuelL .nil) ≤ (jsonStringify v ++ stringifyElemsTail .nil).length + 1
          simp only [show jfuelL .nil = 0 from rfl, show stringifyElemsTail .nil = [] from rfl,
            List.append_nil]
          omega
        | cons v' vs' =>
          have hB := (ih (N - 1) (by omega)).2.1 (.cons v' vs') (by omega)
            (by intro hcontra; cases hcontra)
          show 1 + max (jfuel v) (jfuelL (.cons v' vs')) ≤
            (jsonStringify v ++ stringifyElemsTail (.cons v' vs')).length + 1
          rw [show stringifyElemsTail (.cons v' vs') =
              ',' :: stringifyElems (.cons v' vs') from rfl]
          simp only [List.length_append, List.length_cons]
          omega
    · intro m hmN hmne
      cases m with
      | nil => exact absurd rfl hmne
      | cons k v kvs =>
        rw [jfuelM_cons] at hmN ⊢
        have hN1 : 1 ≤ N := by have := jfuel_pos v; omega
        have hA := (ih (N - 1) (by omega)).1 v (by omega)
        cases kvs with
        | nil =>
          show 1 + max (jfuel v) (jfuelM .nil) ≤
            (stringifyString k ++ ':' :: (jsonStringify v ++ stringifyMembersTail .nil)).length + 1
          simp only [show jfuelM .nil = 0 from rfl, show stringifyMembersTail .nil = [] from rfl,
            List.append_nil, List.length_append, List.length_cons]
          omega
        | cons k' v' kvs' =>
          have hB := (ih (N - 1) (by omega)).2.2 (.cons k' v' kvs') (by omega)
            (by intro hcontra; cases hcontra)
          show 1 + max (jfuel v) (jfuelM (.cons k' v' kvs')) ≤
            (stringifyString k ++
              ':' :: (jsonStringify v ++ stringifyMembersTail (.cons k' v' kvs'))).length + 1
          rw [show stringifyMembersTail (.cons k' v' kvs') =
              ',' :: stringifyMembers (.cons k' v' kvs') from rfl]
          simp only [List.length_append, List.length_cons]
          omega

/-- Round-trip: `JSON.parse` inverts `JSON.stringify`. -/
theorem jsonParse_stringify (v : Json) : jsonParse (jsonStringify v) = some v := by
  have hlen : jfuel v ≤ (jsonStringify v).length :=
    (jfuel_le_length (jfuel v)).1 v le_rfl
  have h := (parse_stringify_main (jfuel v)).1 v le_rfl ((jsonStringify v).length + 1) []
    (by omega) rfl
  rw [List.append_nil] at h
  unfold jsonParse
  rw [h]
  rfl

/-! ## Decoding well-formed two-segment tokens -/

/-- Behaviour of `decodeToken` on a token with two nonempty dot-free segments: the
signature check, then JSON parsing of the decoded payload. -/
theorem decodeToken_parts (p s k : List Char) (hp : p ≠ []) (hs : s ≠ [])
    (hpd : '.' ∉ p) (hsd : '.' ∉ s) :
    decodeToken (p ++ '.' :: s) k =
      if s ≠ sigOf k p then .error .invalidToken
      else
        match jsonParse (utf8Decode (base64Decode p)) with
        | some payload => .ok payload
        | none => .error .jsonError := by
  unfold decodeToken
  rw [jsSplit_append '.' p s hpd, jsSplit_not_mem '.' s hsd]
  simp only [List.getD_cons_zero, List.getD_cons_succ]
  rw [if_neg (by simp [hp, hs])]

/-- Decoding an encoded token with the same key succeeds with the
`\x7b user, data \x7d` payload object. -/
theorem decode_encode_roundtrip (u : List Char) (d : Json) (k : List Char) :
    decodeToken (encodeToken u d k) k = .ok (payloadJson u d) := by
  unfold encodeToken
  rw [decodeToken_parts _ _ _ (encPayload_ne_nil u d) (sigOf_ne_nil _ _)
    (encPayload_no_dot u d) (sigOf_no_dot _ _)]
  rw [if_neg (by simp)]
  unfold encPayload
  rw [base64_roundtrip _ (utf8Encode_lt _), utf8_roundtrip, jsonParse_stringify]

/-! ## Claim theorems for the token codec -/

/-- C1 (amended): for every subject string, data value and secret key,
decoding the token produced by `encodeToken` with the same key succeeds and
returns the payload object `\x7b user: subject, data \x7d` — the field
holding the subject is named `user`, not `subject`, and no `context` field
is involved (its absence causes no error). -/
theorem claimC1_roundtrip (u : List Char) (d : Json) (k : List Char) :
    decodeToken (encodeToken u d k) k = .ok (payloadJson u d) :=
  decode_encode_roundtrip u d k

/-- C3 (amended): `decodeToken` splits at every dot; the payload segment is
everything before the first dot, the compared signature is only the segment
between the first and the second dot, and everything after a second dot is
ignored. -/
theorem claimC3_second_dot_ignored (a b rest k : List Char) (ha : '.' ∉ a) (hb : '.' ∉ b) :
    decodeToken (a ++ '.' :: (b ++ '.' :: rest)) k = decodeToken (a ++ '.' :: b) k := by
  unfold decodeToken
  rw [jsSplit_append '.' a _ ha, jsSplit_append '.' b rest hb, jsSplit_append '.' a b ha,
    jsSplit_not_mem '.' b hb]
  simp only [List.getD_cons_zero, List.getD_cons_succ]

/-- C4 (amended): changing any single character of the signature segment of
a valid token to a different character makes `decodeToken` fail — with
`InvalidSignature`, except when the first signature character is changed to
a dot, which yields the malformed-token error instead. -/
theorem claimC4_tampered_signature (u : List Char) (d : Json) (k : List Char) (i : Nat)
    (c : Char) (hi : i < (sigOf k (encPayload u d)).length)
    (hc : ¬(c = (sigOf k (encPayload u d)).get ⟨i, hi⟩)) :
    decodeToken (encPayload u d ++ '.' :: (sigOf k (encPayload u d)).set i c) k =
      if i = 0 ∧ c = '.' then .error .invalidTokenFormat else .error .invalidToken := by
  by_cases hdot : c = '.'
  · subst hdot
    by_cases hz : i = 0
    · subst hz
      rw [if_pos ⟨rfl, rfl⟩]
      obtain ⟨s0, st, hcons⟩ := List.exists_cons_of_ne_nil (sigOf_ne_nil k (encPayload u d))
      rw [hcons, show (s0 :: st).set 0 '.' = '.' :: st from rfl]
      unfold decodeToken
      rw [jsSplit_append '.' _ _ (encPayload_no_dot u d),
        show jsSplit '.' ('.' :: st) = [] :: jsSplit '.' st from by
          conv_lhs => unfold jsSplit
          rw [if_pos rfl]]
      simp only [List.getD_cons_zero, List.getD_cons_succ]
      rw [if_pos (by simp)]
    · rw [if_neg (by intro hh; exact hz hh.1)]
      rw [List.set_eq_take_cons_drop '.' hi]
      unfold decodeToken
      rw [jsSplit_append '.' _ _ (encPayload_no_dot u d),
        jsSplit_append '.' _ _
          (fun hmem => sigOf_no_dot k (encPayload u d) (List.take_subset i _ hmem))]
      simp only [List.getD_cons_zero, List.getD_cons_succ]
      have hlen := List.length_take i (sigOf k (encPayload u d))
      have htake_ne : List.take i (sigOf k (encPayload u d)) ≠ [] := by
        intro hh
        rw [hh] at hlen
        simp only [List.length_nil] at hlen
        omega
      rw [if_neg (by simp [encPayload_ne_nil u d, htake_ne])]
      rw [if_pos (by
        intro hh
        have hl := congrArg List.length hh
        rw [List.length_take] at hl
        omega)]
  · rw [if_neg (by intro hh; exact hdot hh.2)]
    have hnodot : '.' ∉ (sigOf k (encPayload u d)).set i c := by
      intro hmem
      rcases List.mem_or_eq_of_mem_set hmem with hmem | hh
      · exact sigOf_no_dot _ _ hmem
      · exact hdot hh.symm
    have hne : (sigOf k (encPayload u d)).set i c ≠ [] := by
      intro hh
      have hl := congrArg List.length hh
      rw [List.length_set] at hl
      simp only [List.length_nil] at hl
      omega
    rw [decodeToken_parts _ _ _ (encPayload_ne_nil u d) hne (encPayload_no_dot u d) hnodot]
    rw [if_pos (by
      intro hh
      have h1 : ((sigOf k (encPayload u d)).set i c)[i]? = some c :=
        List.getElem?_set_self hi
      rw [hh, List.getElem?_eq_getElem hi] at h1
      exact hc (by rw [List.get_eq_getElem]; exact (Option.some.injEq _ _ ▸ h1).symm))]

/-- C5 (confirmed): a token with no dot, or an empty segment on either side
of its first dot, fails with the malformed-token error (and no other
error). -/
theorem claimC5_malformed_token (token k : List Char)
    (h : '.' ∉ token ∨ (∃ b, token = '.' :: b) ∨ (∃ a, '.' ∉ a ∧ token = a ++ ['.'])) :
    decodeToken token k = .error .invalidTokenFormat := by
  unfold decodeToken
  rcases h with h | ⟨b, rfl⟩ | ⟨a, ha, rfl⟩
  · rw [jsSplit_not_mem '.' token h]
    simp only [List.getD_cons_zero, List.getD_cons_succ, List.getD_nil]
    rw [if_pos (by simp)]
  · rw [show jsSplit '.' ('.' :: b) = [] :: jsSplit '.' b from by
      conv_lhs => unfold jsSplit
      rw [if_pos rfl]]
    simp only [List.getD_cons_zero]
    rw [if_pos (by simp)]
  · rw [show a ++ ['.'] = a ++ '.' :: ([] : List Char) from rfl, jsSplit_append '.' a [] ha,
      show jsSplit '.' ([] : List Char) = [[]] from rfl]
    simp only [List.getD_cons_zero, List.getD_cons_succ]
    rw [if_pos (by simp)]

/-- C6 (amended): when a token's signature matches but the payload segment
does not decode to valid JSON, `decodeToken` fails with the untagged
`JSON.parse` error, not the malformed-token tag; when the segment is valid
JSON of any shape, the value is returned without shape validation. -/
theorem claimC6_untagged_parse (seg k : List Char) (h1 : seg ≠ []) (h2 : '.' ∉ seg) :
    decodeToken (seg ++ '.' :: sigOf k seg) k =
      match jsonParse (utf8Decode (base64Decode seg)) with
      | some v => .ok v
      | none => .error .jsonError := by
  rw [decodeToken_parts _ _ _ h1 (sigOf_ne_nil _ _) h2 (sigOf_no_dot _ _), if_neg (by simp)]

/-- C7 (confirmed): decoding a token produced under `k1` with a key `k2`
whose recomputed signature differs fails with the invalid-signature
error. -/
theorem claimC7_wrong_key (u : List Char) (d : Json) (k1 k2 : List Char)
    (h : sigOf k2 (encPayload u d) ≠ sigOf k1 (encPayload u d)) :
    decodeToken (encodeToken u d k1) k2 = .error .invalidToken := by
  unfold encodeToken
  rw [decodeToken_parts _ _ _ (encPayload_ne_nil u d) (sigOf_ne_nil _ _)
    (encPayload_no_dot u d) (sigOf_no_dot _ _), if_pos (Ne.symm h)]

/-- C10 (confirmed): every encoded token consists of a nonempty dot-free
payload segment, one dot, and a nonempty dot-free signature segment — it
contains exactly one dot — and decoding it, under any key whatsoever, never
takes the malformed-token branch. -/
theorem claimC10_wellformed (u : List Char) (d : Json) (k : List Char) :
    (encodeToken u d k).count '.' = 1 ∧
    encodeToken u d k = encPayload u d ++ '.' :: sigOf k (encPayload u d) ∧
    encPayload u d ≠ [] ∧ sigOf k (encPayload u d) ≠ [] ∧
    '.' ∉ encPayload u d ∧ '.' ∉ sigOf k (encPayload u d) ∧
    ∀ k' : List Char, decodeToken (encodeToken u d k) k' ≠ .error .invalidTokenFormat := by
  refine ⟨?_, rfl, encPayload_ne_nil u d, sigOf_ne_nil _ _, encPayload_no_dot u d,
    sigOf_no_dot _ _, ?_⟩
  · unfold encodeToken
    rw [List.count_append, List.count_cons]
    rw [List.count_eq_zero.mpr (encPayload_no_dot u d),
      List.count_eq_zero.mpr (sigOf_no_dot k _)]
    simp
  · intro k'
    unfold encodeToken
    rw [decodeToken_parts _ _ _ (encPayload_ne_nil u d) (sigOf_ne_nil _ _)
      (encPayload_no_dot u d) (sigOf_no_dot _ _)]
    split
    · simp
    · split <;> simp

/-! ## Concrete counterexamples and witnesses for the codec claims -/

/-- C1 counterexample: at the spec's own concrete input, the decoded payload
is not the `\x7b subject, data \x7d` object the claim states (the field is
named `user`). -/
theorem claimC1_counterexample :
    decodeToken (encodeToken "u1".data dAdmin "k1".data) "k1".data ≠
      .ok specPayloadSubject := by decide

/-- C2 counterexample: the first segment of the concrete example token,
base64-decoded, does not parse to `\x7b"subject":"u1",...\x7d` — the key the
source writes is `user`. -/
theorem claimC2_counterexample :
    jsonParse (utf8Decode (base64Decode (encPayload "u1".data dAdmin))) ≠
      some specPayloadSubject := by decide

/-- C2 (amended): the concrete example with the field name the source
actually writes: the first segment parses to
`\x7b"user":"u1","data":\x7b"role":"admin"\x7d\x7d`; decoding with `k1`
returns that object, and decoding with `k2` fails with the
invalid-signature error. -/
theorem claimC2_concrete :
    jsonParse (utf8Decode (base64Decode (encPayload "u1".data dAdmin))) =
      some (payloadJson "u1".data dAdmin) ∧
    decodeToken (encodeToken "u1".data dAdmin "k1".data) "k1".data =
      .ok (payloadJson "u1".data dAdmin) ∧
    decodeToken (encodeToken "u1".data dAdmin "k1".data) "k2".data =
      .error .invalidToken := by decide

/-- C3 counterexample: appending `.x` to a valid token still decodes
successfully, while the spec's split-at-first-dot decoder rejects it with
an invalid signature — so the remainder after the first dot (including
later dots) is not what is compared as the signature. -/
theorem claimC3_counterexample :
    decodeToken (encodeToken "u1".data dAdmin "k1".data ++ '.' :: ['x']) "k1".data =
      .ok (payloadJson "u1".data dAdmin) ∧
    decodeTokenSplitFirst (encodeToken "u1".data dAdmin "k1".data ++ '.' :: ['x'])
      "k1".data = .error .invalidToken := by decide

/-- Witness for C3's amended theorem at a concrete input. -/
theorem claimC3_witness :
    decodeToken ("ab".data ++ '.' :: ("cd".data ++ '.' :: "ef".data)) "k1".data =
      decodeToken ("ab".data ++ '.' :: "cd".data) "k1".data :=
  claimC3_second_dot_ignored "ab".data "cd".data "ef".data "k1".data (by decide) (by decide)

/-- C4 counterexample: changing the first signature character of a valid
token to a dot — a different character, since signatures are dot-free —
makes `decodeToken` fail with the malformed-token error, not the
invalid-signature error the claim states. -/
theorem claimC4_counterexample :
    (sigOf "k1".data (encPayload "u1".data dAdmin)).getD 0 ' ' ≠ '.' ∧
    decodeToken (encPayload "u1".data dAdmin ++
        '.' :: (sigOf "k1".data (encPayload "u1".data dAdmin)).set 0 '.') "k1".data =
      .error .invalidTokenFormat := by decide

/-- Witness for C4's amended theorem at a concrete input. -/
theorem claimC4_witness :
    decodeToken (encPayload "u1".data dAdmin ++
        '.' :: (sigOf "k1".data (encPayload "u1".data dAdmin)).set 0 '.') "k1".data =
      if (0 : Nat) = 0 ∧ ('.' : Char) = '.' then Except.error DecodeError.invalidTokenFormat
      else Except.error DecodeError.invalidToken :=
  claimC4_tampered_signature "u1".data dAdmin "k1".data 0 '.' (by decide) (by decide)

/-- Witness for C5 at a concrete dotless token. -/
theorem claimC5_witness :
    decodeToken "abc".data "k1".data = .error .invalidTokenFormat :=
  claimC5_malformed_token "abc".data "k1".data (Or.inl (by decide))

/-- C6 counterexample: a correctly signed token whose payload segment is
the base64 of `nul` (not valid JSON) fails with the untagged JSON error,
which is not the malformed-token tag. -/
theorem claimC6_counterexample :
    DecodeError.jsonError ≠ DecodeError.invalidTokenFormat ∧
    decodeToken (segNul ++ '.' :: sigOf "k1".data segNul) "k1".data =
      .error .jsonError := by decide

/-- Witness for C6's amended theorem at a concrete input. -/
theorem claimC6_witness :
    decodeToken (segNul ++ '.' :: sigOf "k1".data segNul) "k1".data =
      match jsonParse (utf8Decode (base64Decode segNul)) with
      | some v => Except.ok v
      | none => Except.error DecodeError.jsonError :=
  claimC6_untagged_parse segNul "k1".data (by decide) (by decide)

/-- Witness for C7 at the spec's concrete example keys. -/
theorem claimC7_witness :
    decodeToken (encodeToken "u1".data dAdmin "k1".data) "k2".data =
      .error .invalidToken :=
  claimC7_wrong_key "u1".data dAdmin "k1".data "k2".data (by decide)

/-! ## Record-store lemmas -/

/-- Setting a field makes it present with the new value. -/
theorem docLookup_setField_self (k : List Char) (v : Json) : ∀ d : Document,
    docLookup k (setField k v d) = some v
  | [] => by simp [setField, docLookup]
  | (k', v') :: d => by
    by_cases h : k' = k
    · subst h
      simp [setField, docLookup]
    · simp [setField, docLookup, h, docLookup_setField_self k v d]

/-- Setting one field leaves every other field unchanged. -/
theorem docLookup_setField_ne (k1 k2 : List Char) (v : Json) (hne : ¬(k1 = k2)) :
    ∀ d : Document, docLookup k2 (setField k1 v d) = docLookup k2 d
  | [] => by simp [setField, docLookup, hne]
  | (k', v') :: d => by
    by_cases h : k' = k1
    · subst h
      simp [setField, docLookup, hne]
    · by_cases h2 : k' = k2
      · subst h2
        simp [setField, docLookup, h]
      · simp [setField, docLookup, h, h2, docLookup_setField_ne k1 k2 v hne d]

/-- Applying the user `$set` document is four nested single-field sets. -/
theorem applySet_setDoc_eq (u : UserFormat) (d : Document) :
    applySet (setDoc u) d =
      setField lastnameKey (.str u.lastname) (setField firstnameKey (.str u.firstname)
        (setField emailKey (.str u.email) (setField idKey (.str u.id) d))) := rfl

/-- After the user `$set`, the four schema fields hold the record's values. -/
theorem applySet_setDoc_lookups (u : UserFormat) (d : Document) :
    docLookup idKey (applySet (setDoc u) d) = some (.str u.id) ∧
    docLookup emailKey (applySet (setDoc u) d) = some (.str u.email) ∧
    docLookup firstnameKey (applySet (setDoc u) d) = some (.str u.firstname) ∧
    docLookup lastnameKey (applySet (setDoc u) d) = some (.str u.lastname) := by
  rw [applySet_setDoc_eq]
  refine ⟨?_, ?_, ?_, ?_⟩
  · rw [docLookup_setField_ne _ _ _ (by decide), docLookup_setField_ne _ _ _ (by decide),
      docLookup_setField_ne _ _ _ (by decide), docLookup_setField_self]
  · rw [docLookup_setField_ne _ _ _ (by decide), docLookup_setField_ne _ _ _ (by decide),
      docLookup_setField_self]
  · rw [docLookup_setField_ne _ _ _ (by decide), docLookup_setField_self]
  · rw [docLookup_setField_self]

/-- After the user `$set`, every field outside the schema is unchanged. -/
theorem applySet_setDoc_frame (u : UserFormat) (d : Document) (kf : List Char)
    (h1 : ¬(kf = idKey)) (h2 : ¬(kf = emailKey)) (h3 : ¬(kf = firstnameKey))
    (h4 : ¬(kf = lastnameKey)) :
    docLookup kf (applySet (setDoc u) d) = docLookup kf d := by
  rw [applySet_setDoc_eq,
    docLookup_setField_ne _ _ _ (fun hh => h4 hh.symm),
    docLookup_setField_ne _ _ _ (fun hh => h3 hh.symm),
    docLookup_setField_ne _ _ _ (fun hh => h2 hh.symm),
    docLookup_setField_ne _ _ _ (fun hh => h1 hh.symm)]

/-- The upserted document for an unmatched filter is exactly the four-field
schema document. -/
theorem applySet_setDoc_insert (u : UserFormat) :
    applySet (setDoc u) [(idKey, .str u.id)] = setDoc u := rfl

/-- The filter test unfolded to the id-field lookup. -/
theorem matchesId_eq_true (idv : List Char) (d : Document) :
    matchesId idv d = true ↔ docLookup idKey d = some (.str idv) := by
  simp [matchesId]

/-- The updated document still matches its id filter. -/
theorem matchesId_applySet_setDoc (u : UserFormat) (d : Document) :
    matchesId u.id (applySet (setDoc u) d) = true :=
  (matchesId_eq_true _ _).mpr (applySet_setDoc_lookups u d).1

/-- An update touches only the first matching document, in place. -/
theorem updateOneUpsert_split (idv : List Char) (fields : List (List Char × Json)) :
    ∀ (pre : List Document) (d : Document) (post : List Document),
    (∀ d' ∈ pre, matchesId idv d' = false) → matchesId idv d = true →
    updateOneUpsert idv fields (pre ++ d :: post) = pre ++ applySet fields d :: post
  | [], d, post, _, hd => by simp [updateOneUpsert, hd]
  | d' :: pre, d, post, hpre, hd => by
    have h' := hpre d' (by simp)
    simp [updateOneUpsert, h',
      updateOneUpsert_split idv fields pre d post (fun x hx => hpre x (by simp [hx])) hd]

/-- An update with upsert appends a fresh document when nothing matches. -/
theorem updateOneUpsert_nomatch (idv : List Char) (fields : List (List Char × Json)) :
    ∀ store : List Document, (∀ d ∈ store, matchesId idv d = false) →
    updateOneUpsert idv fields store = store ++ [applySet fields [(idKey, .str idv)]]
  | [], _ => rfl
  | d :: ds, h => by
    simp [updateOneUpsert, h d (by simp),
      updateOneUpsert_nomatch idv fields ds (fun x hx => h x (by simp [hx]))]

/-- A fetch hits a matching head document. -/
theorem getUser_cons_pos (idv : List Char) (d : Document) (ds : List Document)
    (h : matchesId idv d = true) : getUser idv (d :: ds) = .ok d := by
  unfold getUser
  rw [List.find?_cons_of_pos _ h]

/-- A fetch skips a non-matching head document. -/
theorem getUser_cons_neg (idv : List Char) (d : Document) (ds : List Document)
    (h : matchesId idv d = false) : getUser idv (d :: ds) = getUser idv ds := by
  unfold getUser
  rw [List.find?_cons_of_neg _ (by simp [h])]

/-- A fetch misses when no document matches. -/
theorem getUser_nomatch (idv : List Char) (store : List Document)
    (h : ∀ d ∈ store, matchesId idv d = false) :
    getUser idv store = .error .userNotFound := by
  unfold getUser
  rw [List.find?_eq_none.mpr (fun d hd => by simp [h d hd])]

/-- Fetch after upsert finds a document carrying the four written fields. -/
theorem getUser_after_update (u : UserFormat) : ∀ store : List Document,
    ∃ d, getUser u.id (updateUser u store) = .ok d ∧
      docLookup idKey d = some (.str u.id) ∧ docLookup emailKey d = some (.str u.email) ∧
      docLookup firstnameKey d = some (.str u.firstname) ∧
      docLookup lastnameKey d = some (.str u.lastname) := by
  intro store
  induction store with
  | nil =>
    refine ⟨applySet (setDoc u) [(idKey, .str u.id)], ?_,
      (applySet_setDoc_lookups u _).1, (applySet_setDoc_lookups u _).2.1,
      (applySet_setDoc_lookups u _).2.2.1, (applySet_setDoc_lookups u _).2.2.2⟩
    exact getUser_cons_pos _ _ _ (matchesId_applySet_setDoc u _)
  | cons d ds ih =>
    by_cases h : matchesId u.id d = true
    · refine ⟨applySet (setDoc u) d, ?_,
        (applySet_setDoc_lookups u d).1, (applySet_setDoc_lookups u d).2.1,
        (applySet_setDoc_lookups u d).2.2.1, (applySet_setDoc_lookups u d).2.2.2⟩
      show getUser u.id (updateOneUpsert u.id (setDoc u) (d :: ds)) = _
      unfold updateOneUpsert
      rw [if_pos h]
      exact getUser_cons_pos _ _ _ (matchesId_applySet_setDoc u d)
    · obtain ⟨d', hget, hl⟩ := ih
      refine ⟨d', ?_, hl⟩
      show getUser u.id (updateOneUpsert u.id (setDoc u) (d :: ds)) = _
      unfold updateOneUpsert
      rw [if_neg h, getUser_cons_neg _ _ _ (by simpa using h)]
      exact hget

/-- Upserting a record with a different id never creates or leaves a
document matching the probed id. -/
theorem updateUser_preserves_nomatch (r : UserFormat) (idv : List Char)
    (hne : ¬(r.id = idv)) : ∀ store : List Document,
    (∀ d ∈ store, matchesId idv d = false) →
    ∀ d ∈ updateUser r store, matchesId idv d = false := by
  have hupd : ∀ d : Document, matchesId idv (applySet (setDoc r) d) = false := by
    intro d
    simp only [matchesId, (applySet_setDoc_lookups r d).1]
    simp [hne]
  intro store
  induction store with
  | nil =>
    intro _ d hd
    show matchesId idv d = false
    simp only [updateUser, updateOneUpsert, List.mem_singleton] at hd
    subst hd
    exact hupd _
  | cons d0 ds ih =>
    intro h d hd
    show matchesId idv d = false
    by_cases h0 : matchesId r.id d0 = true
    · simp only [updateUser, updateOneUpsert, if_pos h0, List.mem_cons] at hd
      rcases hd with rfl | hd
      · exact hupd d0
      · exact h d (by simp [hd])
    · simp only [updateUser, updateOneUpsert, if_neg h0, List.mem_cons] at hd
      rcases hd with rfl | hd
      · exact h d (by simp)
      · exact ih (fun x hx => h x (by simp [hx])) d hd

/-- A never-upserted identifier is absent after any sequence of upserts
from the empty store. -/
theorem getUser_never_upserted (recs : List UserFormat) (idv : List Char)
    (h : ∀ r ∈ recs, ¬(r.id = idv)) :
    getUser idv (recs.foldl (fun s r => updateUser r s) []) = .error .userNotFound := by
  suffices haux : ∀ (recs : List UserFormat) (store : List Document),
      (∀ d ∈ store, matchesId idv d = false) → (∀ r ∈ recs, ¬(r.id = idv)) →
      getUser idv (recs.foldl (fun s r => updateUser r s) store) = .error .userNotFound by
    exact haux recs [] (by simp) h
  intro recs
  induction recs with
  | nil =>
    intro store hstore _
    exact getUser_nomatch idv store hstore
  | cons r recs ih =>
    intro store hstore hrecs
    simp only [List.foldl_cons]
    exact ih (updateUser r store)
      (updateUser_preserves_nomatch r idv (hrecs r (by simp)) store hstore)
      (fun x hx => hrecs x (by simp [hx]))

/-! ## Claim theorems for the record store -/

/-- C8 counterexample: updating a stored document that carries a fifth
field `extra` preserves that field — `$set` is a merge, not the full
replacement the claim states — and the result is not the four-field-only
document. -/
theorem claimC8_counterexample :
    docLookup extraKey ((updateUser recNew storeWithExtra).getD 0 []) =
      some (.str "x".data) ∧
    updateUser recNew storeWithExtra ≠ [setDoc recNew] := by decide

/-- C8 (amended): `updateUser` performs a Mongo `$set` merge with upsert:
the first document matching `id` gets the four schema fields set to the
record's values while every other field it carried is preserved, documents
before and after it are untouched, and when no document matches, a new
document holding exactly the four fields is appended. -/
theorem claimC8_set_merge (u : UserFormat) :
    (∀ (pre : List Document) (d : Document) (post : List Document),
      (∀ d' ∈ pre, matchesId u.id d' = false) → matchesId u.id d = true →
      updateUser u (pre ++ d :: post) = pre ++ applySet (setDoc u) d :: post ∧
      docLookup idKey (applySet (setDoc u) d) = some (.str u.id) ∧
      docLookup emailKey (applySet (setDoc u) d) = some (.str u.email) ∧
      docLookup firstnameKey (applySet (setDoc u) d) = some (.str u.firstname) ∧
      docLookup lastnameKey (applySet (setDoc u) d) = some (.str u.lastname) ∧
      (∀ kf, ¬(kf = idKey) → ¬(kf = emailKey) → ¬(kf = firstnameKey) →
        ¬(kf = lastnameKey) →
        docLookup kf (applySet (setDoc u) d) = docLookup kf d)) ∧
    (∀ store : List Document, (∀ d ∈ store, matchesId u.id d = false) →
      updateUser u store = store ++ [setDoc u]) := by
  constructor
  · intro pre d post hpre hd
    refine ⟨updateOneUpsert_split u.id (setDoc u) pre d post hpre hd,
      (applySet_setDoc_lookups u d).1, (applySet_setDoc_lookups u d).2.1,
      (applySet_setDoc_lookups u d).2.2.1, (applySet_setDoc_lookups u d).2.2.2,
      fun kf h1 h2 h3 h4 => applySet_setDoc_frame u d kf h1 h2 h3 h4⟩
  · intro store hstore
    rw [show updateUser u store = updateOneUpsert u.id (setDoc u) store from rfl,
      updateOneUpsert_nomatch u.id (setDoc u) store hstore, applySet_setDoc_insert]

/-- Witness for C8's amended theorem: upserting into the empty store
appends exactly the four-field document. -/
theorem claimC8_witness : updateUser recNew [] = [setDoc recNew] :=
  (claimC8_set_merge recNew).2 [] (by simp)

/-- C9 (confirmed): after `upsertUserById(record)`, fetching `record.id`
succeeds with a document whose four schema fields equal the record's; and
fetching an identifier never upserted fails with `NotFound`. -/
theorem claimC9_upsert_fetch :
    (∀ (u : UserFormat) (store : List Document), ∃ d,
      getUser u.id (updateUser u store) = .ok d ∧
      docLookup idKey d = some (.str u.id) ∧ docLookup emailKey d = some (.str u.email) ∧
      docLookup firstnameKey d = some (.str u.firstname) ∧
      docLookup lastnameKey d = some (.str u.lastname)) ∧
    (∀ (recs : List UserFormat) (idv : List Char), (∀ r ∈ recs, ¬(r.id = idv)) →
      getUser idv (recs.foldl (fun s r => updateUser r s) []) = .error .userNotFound) :=
  ⟨fun u store => getUser_after_update u store,
   fun recs idv h => getUser_never_upserted recs idv h⟩

/-- Witness for C9 at concrete inputs: fetching after one upsert succeeds
with the four fields, and a fresh identifier misses. -/
theorem claimC9_witness :
    getUser "zz".data ([recNew].foldl (fun s r => updateUser r s) []) =
      .error .userNotFound :=
  claimC9_upsert_fetch.2 [recNew] "zz".data (by decide)

end VbagAPI
